import Mathlib

/-!
Verification of the HTML quiz extractor `qs_extract_ccna.py`.

The development shallowly embeds the program: the parsed HTML document is a
tree of typed nodes (tag name, attributes, children, text leaves), and each
Python function of the script becomes a Lean function over that tree.  The
BeautifulSoup collaborators used by the script (`get_text`, `find_all`,
`find`, `find_next_sibling`) are modelled as pure traversals of the tree,
and the Python stdlib helpers (`html.unescape`, `re` whitespace classes,
`str.strip`, `str.split`, `list.sort`, `urllib.parse.urlparse`) are
modelled over lists of characters.  All definitions are structurally
recursive so that concrete documents evaluate inside the kernel.
-/

/-- Whitespace as matched by Python's `\s` regex class and `str.strip` over
`str` inputs: ASCII whitespace plus the common Unicode space characters
(NEL, NBSP, ogham space, the U+2000 block, line/paragraph separators,
narrow/medium spaces, ideographic space). -/
def isPySpace (c : Char) : Bool :=
  c.toNat = 32 || c.toNat = 9 || c.toNat = 10 || c.toNat = 13 ||
  c.toNat = 11 || c.toNat = 12 || c.toNat = 0x85 || c.toNat = 0xa0 ||
  c.toNat = 0x1680 || (0x2000 ≤ c.toNat && c.toNat ≤ 0x200a) ||
  c.toNat = 0x2028 || c.toNat = 0x2029 || c.toNat = 0x202f ||
  c.toNat = 0x205f || c.toNat = 0x3000

/-- Remove a trailing run of characters satisfying `p` (the right half of
Python's `str.strip`). -/
def dropTrail (p : Char → Bool) (cs : List Char) : List Char :=
  (cs.reverse.dropWhile p).reverse

/-- Python `str.strip()` on a list of characters. -/
def pyStripList (cs : List Char) : List Char :=
  dropTrail isPySpace (cs.dropWhile isPySpace)

/-- Python `str.strip()`. -/
def pyStrip (s : String) : String :=
  ⟨pyStripList s.toList⟩

/-- Python substring test `needle in hay` on character lists. -/
def isSubstrList (needle hay : List Char) : Bool :=
  hay.tails.any (fun t => needle.isPrefixOf t)

/-- Python substring test `needle in hay`. -/
def isSubstr (needle hay : String) : Bool :=
  isSubstrList needle.toList hay.toList

/-- Python `str.lower()` (ASCII case folding suffices for the script's
keyword comparisons). -/
def strLower (s : String) : String :=
  ⟨s.toList.map Char.toLower⟩

/-- Python `raw.split('\n')` on a character list: the newline-separated
pieces, empty pieces preserved. -/
def splitNl : List Char → List (List Char)
  | [] => [[]]
  | '\n' :: rest => [] :: splitNl rest
  | c :: rest =>
    match splitNl rest with
    | [] => [[c]]
    | l :: ls => (c :: l) :: ls

/-- `'\n'.join(...)` on character lists. -/
def joinNl : List (List Char) → List Char
  | [] => []
  | [l] => l
  | l :: ls => l ++ '\n' :: joinNl ls

/-- `sep.join(...)` on strings. -/
def joinWith (sep : String) : List String → String
  | [] => ""
  | [x] => x
  | x :: xs => x ++ sep ++ joinWith sep xs

/-- Numeric value of a run of ASCII digits, as Python `int()` on the
captured group of `^(\d+)\.`. -/
def digitsToNat (ds : List Char) : Nat :=
  ds.foldl (fun n c => 10 * n + (c.toNat - 48)) 0

/-- The script's question-anchor test `re.match(r'^\d+\.\s+', text)`:
one or more digits, a period, then at least one whitespace character. -/
def qPatternTest (cs : List Char) : Bool :=
  let ds := cs.takeWhile Char.isDigit
  !ds.isEmpty &&
    match cs.dropWhile Char.isDigit with
    | '.' :: c :: _ => isPySpace c
    | _ => false

/-- The script's index capture `re.match(r'^(\d+)\.', text)` followed by
`int(...)` on the captured digits. -/
def qNumOf (cs : List Char) : Option Nat :=
  let ds := cs.takeWhile Char.isDigit
  if ds.isEmpty then none
  else
    match cs.dropWhile Char.isDigit with
    | '.' :: _ => some (digitsToNat ds)
    | _ => none

/-- `qNumOf` on a string. -/
def qNumOfStr (s : String) : Option Nat :=
  qNumOf s.toList

/-- Character-entity table modelling the core of Python's `html.unescape`:
the named entities the quiz documents use, each in its `;`-terminated form.
The decode is a single left-to-right pass; decoded output is never
re-scanned, so doubly escaped text (`&amp;nbsp;`) decodes to the literal
text `&nbsp;`. -/
def entityTable : List (String × Char) :=
  [("amp", '&'), ("nbsp", Char.ofNat 0xa0), ("lt", '<'), ("gt", '>'),
   ("quot", '"')]

/-- Try to decode one entity occurring right after an ampersand: returns the
replacement character and the number of characters consumed after the `&`.
Named entities require the terminating semicolon or an exact bare-name
match (as `html.unescape` accepts `&amp` without `;`); numeric entities
`&#NNN;` decode via the code point. -/
def matchEntity (cs : List Char) : Option (Char × Nat) :=
  match cs with
  | '#' :: rest =>
    let ds := rest.takeWhile Char.isDigit
    if ds.isEmpty then none
    else
      let n := digitsToNat ds
      match rest.dropWhile Char.isDigit with
      | ';' :: _ => some (Char.ofNat n, 1 + ds.length + 1)
      | _ => some (Char.ofNat n, 1 + ds.length)
  | _ =>
    let nm := cs.takeWhile (fun c => c.isAlpha)
    match entityTable.find? (fun p => p.1.toList = nm) with
    | some p =>
      match cs.dropWhile (fun c => c.isAlpha) with
      | ';' :: _ => some (p.2, nm.length + 1)
      | _ => some (p.2, nm.length)
    | none => none

/-- Fueled worker for the single `html.unescape` pass (every step consumes
at least one character, so fuel equal to the length is always enough). -/
def unescapeFuel : Nat → List Char → List Char
  | 0, _ => []
  | _ + 1, [] => []
  | f + 1, '&' :: rest =>
    (match matchEntity rest with
     | some (c, k) => c :: unescapeFuel f (rest.drop k)
     | none => '&' :: unescapeFuel f rest)
  | f + 1, c :: rest => c :: unescapeFuel f rest

/-- Single pass of `html.unescape` over a character list. -/
def unescapeList (cs : List Char) : List Char :=
  unescapeFuel cs.length cs

/-- Worker for `re.sub(r'\s+', ' ', text)`: `prevWs` records whether the
previous character was part of a whitespace run already replaced by a
single space. -/
def collapseAux : Bool → List Char → List Char
  | _, [] => []
  | prevWs, c :: rest =>
    if isPySpace c then
      if prevWs then collapseAux true rest
      else ' ' :: collapseAux true rest
    else c :: collapseAux false rest

/-- `re.sub(r'\s+', ' ', text)`: every maximal whitespace run becomes one
space. -/
def collapseWs (cs : List Char) : List Char :=
  collapseAux false cs

/-- `clean_text` from the script: entity decode, whitespace collapse, strip;
falsy (empty) input short-circuits to the empty string. -/
def clean_text (s : String) : String :=
  if s = "" then ""
  else pyStrip ⟨collapseWs (unescapeList s.toList)⟩

/-- Python's stable `list.sort(key=...)` for natural-number keys: each
element is inserted after every already-placed element whose key is not
greater, so elements with equal keys keep their relative order. -/
def insByKey {α : Type} (key : α → Nat) (x : α) : List α → List α
  | [] => [x]
  | y :: rest =>
    if key y ≤ key x then y :: insByKey key x rest else x :: y :: rest

/-- Stable ascending sort by key. -/
def sortByKey {α : Type} (key : α → Nat) (l : List α) : List α :=
  l.foldl (fun acc x => insByKey key x acc) []

/-! ## The document tree -/

/-- Attributes the script consults: the `style` attribute (a plain string,
absent when the tag has none) and the multi-valued `class` attribute. -/
structure NAttrs where
  style : Option String := none
  classes : List String := []
deriving DecidableEq, Repr

mutual
/-- A parsed HTML node: a text leaf (already entity-decoded by the parser)
or a tag with name, attributes and children. -/
inductive Node where
  | text : String → Node
  | tag : String → NAttrs → NodeList → Node

/-- A sibling sequence of nodes (mutual with `Node` so that traversals are
structurally recursive). -/
inductive NodeList where
  | nil : NodeList
  | cons : Node → NodeList → NodeList
end

deriving instance DecidableEq for Node

/-- Plain-list view of a sibling sequence. -/
def NodeList.toList : NodeList → List Node
  | .nil => []
  | .cons n rest => n :: rest.toList

/-- Build a sibling sequence from a plain list. -/
def nodesOf : List Node → NodeList
  | [] => .nil
  | n :: rest => .cons n (nodesOf rest)

/-- Tag name of a node (text leaves have none). -/
def Node.tagName : Node → String
  | .text _ => ""
  | .tag t _ _ => t

/-- Children of a node. -/
def Node.children : Node → NodeList
  | .text _ => .nil
  | .tag _ _ ch => ch

/-- Attributes of a node. -/
def Node.attrs : Node → NAttrs
  | .text _ => {}
  | .tag _ a _ => a

/-- Is the node a tag (BeautifulSoup `find`-family methods with no text
filter only ever match tags, never strings)? -/
def isTagNode : Node → Bool
  | .text _ => false
  | .tag _ _ _ => true

/-- The tag nodes of a sibling sequence (`find_next_sibling` skips text
siblings, so a walk visits exactly these). -/
def tagsOf (ns : NodeList) : List Node :=
  ns.toList.filter isTagNode

mutual
/-- BeautifulSoup `get_text()` of one node: concatenation of all descendant
text leaves in document order. -/
def Node.getText : Node → String
  | .text s => s
  | .tag _ _ ch => NodeList.textOf ch

/-- `get_text()` of a sibling sequence. -/
def NodeList.textOf : NodeList → String
  | .nil => ""
  | .cons n rest => n.getText ++ NodeList.textOf rest
end

mutual
/-- The node itself (when a tag) followed by its tag descendants, in
document (preorder) order. -/
def Node.selfDesc : Node → List Node
  | .text _ => []
  | .tag t a ch => .tag t a ch :: NodeList.tagDesc ch

/-- All tag descendants of a sibling sequence, in document order: the
order BeautifulSoup's `find_all` enumerates. -/
def NodeList.tagDesc : NodeList → List Node
  | .nil => []
  | .cons n rest => n.selfDesc ++ NodeList.tagDesc rest
end

/-- A tag node together with its sibling context: the tag siblings that
follow it at its own level (`afterSelf`) and the tag siblings that follow
its parent (`afterParent`).  These are exactly the data the script's
`find_next_sibling` walk needs. -/
structure Ctx where
  node : Node
  afterSelf : List Node
  afterParent : List Node

mutual
/-- Context annotation of one node: the node's entry (when a tag) followed
by its descendants' entries.  `aft` is the list of tag siblings after the
node, `afterParent` the tag siblings after its parent. -/
def ctxOfNode (afterParent aft : List Node) : Node → List Ctx
  | .text _ => []
  | .tag t a ch => ⟨.tag t a ch, aft, afterParent⟩ :: ctxOfList aft ch

/-- Context-annotated preorder traversal of a sibling sequence,
`afterParent` being the tag siblings following the parent node. -/
def ctxOfList (afterParent : List Node) : NodeList → List Ctx
  | .nil => []
  | .cons n rest =>
    ctxOfNode afterParent (tagsOf rest) n ++ ctxOfList afterParent rest
end

/-- Context-annotated descendants of an annotated node (used for
`p_tag.find('strong')`: the found tag's own sibling context is needed when
it becomes a question anchor). -/
def descCtx (e : Ctx) : List Ctx :=
  ctxOfList e.afterSelf e.node.children

/-! ## Choice detection -/

/-- The `style=lambda x: x and 'color:' in x` filter: the style attribute is
present and contains the substring `color:`. -/
def styleHasColor : Option String → Bool
  | none => false
  | some s => isSubstr "color:" s

mutual
/-- Does this node or one of its tag descendants match
`find(['span', 'strong'], style=...)`? -/
def Node.coloredHere : Node → Bool
  | .text _ => false
  | .tag t a ch =>
    ((t = "span" || t = "strong") && styleHasColor a.style) ||
      NodeList.coloredIn ch

/-- Does the sibling sequence contain a color-styled `span`/`strong`? -/
def NodeList.coloredIn : NodeList → Bool
  | .nil => false
  | .cons n rest => n.coloredHere || NodeList.coloredIn rest
end

/-- The script's correct-answer test on one list item: a `span`/`strong`
descendant styled with a color, or the item itself classed
`correct_answer`. -/
def liDetected (li : Node) : Bool :=
  NodeList.coloredIn li.children || li.attrs.classes.contains "correct_answer"

/-- `ul.find_all('li')`: every `li` tag descendant of the list node, in
document order. -/
def ulLis (u : Node) : List Node :=
  (NodeList.tagDesc u.children).filter (fun n => n.tagName = "li")

/-- The choice loop of the script: for each item, the normalized text is
appended to the choices when non-empty, and additionally to the correct
answers when the item passes the correct-answer test. -/
def ulChoices (lis : List Node) : List String × List String :=
  lis.foldl
    (fun acc li =>
      let ct := clean_text li.getText
      if ct = "" then acc
      else (acc.1 ++ [ct], if liDetected li then acc.2 ++ [ct] else acc.2))
    ([], [])

/-! ## The per-question sibling scan -/

/-- Find the first tag descendant with the given name
(`element.find(name)`). -/
def firstNamed (t : String) (ns : NodeList) : Option Node :=
  (NodeList.tagDesc ns).find? (fun n => n.tagName = t)

/-- The scan's next-question test on a `p` node: its first `strong`
descendant (else its first `b` descendant) exists and its stripped text
matches the anchor pattern. -/
def pIsNewQuestion (n : Node) : Bool :=
  match (firstNamed "strong" n.children).orElse
      (fun _ => firstNamed "b" n.children) with
  | none => false
  | some sb => qPatternTest (pyStrip sb.getText).toList

/-- The `<pre>` cleanup: split the raw text on newlines, strip each line,
drop blank lines, rejoin with single newlines. -/
def preClean (raw : String) : String :=
  ⟨joinNl (((splitNl raw.toList).map pyStripList).filter (fun l => l ≠ []))⟩

/-- Python truthiness of the `pre_content` variable: falsy when still
`None` or when holding the empty string. -/
def falsyOpt : Option String → Bool
  | none => true
  | some s => s = ""

/-- Accumulator of the sibling scan: the choices, the correct answers, and
the captured preformatted content (`none` = Python `None`). -/
structure ScanSt where
  choices : List String := []
  corrects : List String := []
  pre : Option String := none
deriving DecidableEq, Repr

/-- The sibling walk of the script, over the list of tag siblings starting
at the question anchor's first following sibling: a `ul` supplies the
choices and stops the scan; a `p` holding a pattern-matching `strong`/`b`
signals the next question and stops the scan; a `pre` is captured when the
`pre_content` variable is still falsy; every other tag is skipped. -/
def scanWalk : List Node → ScanSt → ScanSt
  | [], st => st
  | n :: rest, st =>
    if n.tagName = "ul" then
      let cc := ulChoices (ulLis n)
      { st with choices := st.choices ++ cc.1, corrects := st.corrects ++ cc.2 }
    else if n.tagName = "p" then
      if pIsNewQuestion n then st else scanWalk rest st
    else if n.tagName = "pre" then
      scanWalk rest
        (if falsyOpt st.pre then { st with pre := some (preClean n.getText) }
         else st)
    else scanWalk rest st

/-! ## Record assembly -/

/-- The `answer` value: a single string or a list of strings, as the JSON
output distinguishes. -/
inductive Ans where
  | s : String → Ans
  | l : List String → Ans
deriving DecidableEq, Repr

/-- One output record (the Python dict).  `question` is always set by the
script; every other field is optional.  The script never sets `img`, but
the validator consults it, so the field is carried. -/
structure QRecord where
  question : String
  pre : Option String := none
  choices : Option (List String) := none
  answer : Option Ans := none
  qtype : Option String := none
  img : Option String := none
deriving DecidableEq, Repr

/-- The special-question keywords. -/
def specialKeywords : List String :=
  ["match", "question as presented", "refer to the exhibit"]

/-- Record assembly after the scan: attach truthy `pre` content; with
choices, shape the answer by the number of correct answers; without
choices, emit a special record when the lowered question text contains a
keyword, else emit nothing. -/
def assemble (qtext : String) (st : ScanSt) : Option QRecord :=
  let preF := if falsyOpt st.pre then none else st.pre
  if !st.choices.isEmpty then
    some { question := qtext, pre := preF, choices := some st.choices,
           answer := some
             (match st.corrects with
              | [a] => .s a
              | [] => .s "Unknown"
              | l => .l l) }
  else if specialKeywords.any (fun k => isSubstr k (strLower qtext)) then
    some { question := qtext, pre := preF, choices := some [],
           answer := some (.s "See image for the answer"),
           qtype := some "special" }
  else none

/-- The walk start for an anchor: its first following tag sibling onward,
or, when it has none, its parent's first following tag sibling onward. -/
def walkOf (e : Ctx) : List Node :=
  if e.afterSelf.isEmpty then e.afterParent else e.afterSelf

/-- Everything the loop body does for one anchor: clean the anchor text,
scan the siblings, assemble the record. -/
def processAnchor (e : Ctx) : Option QRecord :=
  assemble (clean_text e.node.getText) (scanWalk (walkOf e) {})

/-! ## Anchor discovery -/

/-- Sort key `get_question_number`: the captured index, defaulting to 0. -/
def anchorIdx (e : Ctx) : Nat :=
  (qNumOf (pyStrip e.node.getText).toList).getD 0

/-- The shared tail of both discovery passes: pattern-test the stripped
text, capture the index, and retain the anchor only when the index is
new. -/
def addCand (acc : List Nat × List Ctx) (e : Ctx) : List Nat × List Ctx :=
  let t := (pyStrip e.node.getText).toList
  if qPatternTest t then
    match qNumOf t with
    | some q =>
      if acc.1.contains q then acc else (acc.1 ++ [q], acc.2 ++ [e])
    | none => acc
  else acc

/-- One step of the first discovery pass: consider every `strong`/`b`
tag. -/
def pass1Step (acc : List Nat × List Ctx) (e : Ctx) : List Nat × List Ctx :=
  if e.node.tagName = "strong" || e.node.tagName = "b" then addCand acc e
  else acc

/-- First discovery pass: every `strong`/`b` tag in document order. -/
def pass1 (ctxs : List Ctx) : List Nat × List Ctx :=
  ctxs.foldl pass1Step ([], [])

/-- The `p`-pass candidate: the paragraph's first `strong` descendant, else
its first `b` descendant, with its own sibling context. -/
def pCandOf (e : Ctx) : Option Ctx :=
  ((descCtx e).find? (fun c => c.node.tagName = "strong")).orElse
    (fun _ => (descCtx e).find? (fun c => c.node.tagName = "b"))

/-- One step of the second discovery pass: consider every `p` tag's first
emphasized descendant. -/
def pass2Step (acc : List Nat × List Ctx) (e : Ctx) : List Nat × List Ctx :=
  if e.node.tagName = "p" then
    match pCandOf e with
    | some se => addCand acc se
    | none => acc
  else acc

/-- Second discovery pass: every `p` tag's first emphasized descendant,
deduplicated against the indices the first pass already saw. -/
def pass2 (ctxs : List Ctx) (init : List Nat × List Ctx) :
    List Nat × List Ctx :=
  ctxs.foldl pass2Step init

/-- The retained anchors of a document, in discovery order. -/
def foundAnchors (doc : NodeList) : List Ctx :=
  let ctxs := ctxOfList [] doc
  (pass2 ctxs (pass1 ctxs)).2

/-- The anchors sorted ascending by question index (`list.sort(key=...)`,
a stable sort). -/
def sortedAnchors (doc : NodeList) : List Ctx :=
  sortByKey anchorIdx (foundAnchors doc)

/-- `extract_quiz_data`: the full extraction pipeline over a parsed
document (sequence of top-level nodes). -/
def extract_quiz_data (doc : NodeList) : List QRecord :=
  (sortedAnchors doc).filterMap processAnchor

/-- The variant of `extract_quiz_data` with the paragraph discovery pass
removed (the variant the redundancy claim compares against). -/
def extract_quiz_data_firstPassOnly (doc : NodeList) : List QRecord :=
  (sortByKey anchorIdx (pass1 (ctxOfList [] doc)).2).filterMap processAnchor

/-! ## Validation -/

/-- Characters allowed in a URL scheme after the leading letter
(`urllib.parse` accepts letters, digits, `+`, `-`, `.`). -/
def isSchemeChar (c : Char) : Bool :=
  c.isAlpha || c.isDigit || c = '+' || c = '-' || c = '.'

/-- `is_valid_url` from the script, modelling `urllib.parse.urlparse`:
truthy scheme (a leading letter-initial run of scheme characters before a
colon) and truthy netloc (non-empty authority after `//`, up to the next
`/`, `?` or `#`). -/
def is_valid_url (u : String) : Bool :=
  let cs := u.toList
  let scheme := cs.takeWhile isSchemeChar
  match scheme with
  | [] => false
  | c :: _ =>
    c.isAlpha &&
      match cs.dropWhile isSchemeChar with
      | ':' :: '/' :: '/' :: rest =>
        !(rest.takeWhile
            (fun c => c ≠ '/' && c ≠ '?' && c ≠ '#')).isEmpty
      | _ => false

/-- Python truthiness of an `answer` value: `None`, `""` and `[]` are
falsy. -/
def answerFalsy : Option Ans → Bool
  | none => true
  | some (.s s) => s = ""
  | some (.l l) => l.isEmpty

/-- The Python comparison `answer == "Unknown"` (a list never equals a
string). -/
def answerIsUnknown : Option Ans → Bool
  | some (.s a) => a = "Unknown"
  | _ => false

/-- The per-record checks of `validate_questions`, returning the error
messages in emission order.  The `'question' not in question` branch is
unreachable for records of this type, which always carry the field the
extractor always sets. -/
def validateRecord (r : QRecord) : List String :=
  let qErrs :=
    if (pyStrip r.question).length ≤ 5 then ["Question too short"] else []
  let choices := r.choices.getD []
  let ansErrs :=
    if choices.length > 0 then
      (if answerFalsy r.answer then ["Has choices but no answer key"]
       else if answerIsUnknown r.answer then ["Answer is Unknown"] else [])
      ++
      (if !answerFalsy r.answer && !answerIsUnknown r.answer &&
          r.qtype.getD "regular" ≠ "special" then
        match r.answer with
        | some (.l l) =>
          l.filterMap
            (fun a =>
              if choices.contains a then none
              else some "Answer not in choices")
        | some (.s a) =>
          if choices.contains a then [] else ["Answer not in choices"]
        | none => []
      else [])
    else []
  let imgErrs :=
    match r.img with
    | none => []
    | some u => if is_valid_url u then [] else ["Invalid image URL"]
  qErrs ++ ansErrs ++ imgErrs

/-- `validate_questions` as its boolean result: no record produced an
error. -/
def validate_questions (rs : List QRecord) : Bool :=
  rs.all (fun r => (validateRecord r).isEmpty)

/-- The tail of `main` once extraction and the JSON write both succeeded:
exit 0 on a clean validation, exit 1 otherwise. -/
def mainExitCode (rs : List QRecord) : Nat :=
  if validate_questions rs then 0 else 1

/-! ## Serialization -/

/-- JSON string escaping with `ensure_ascii=False`: quote, backslash and
the common control characters are escaped, everything else (non-ASCII
included) is emitted raw. -/
def jsonEscape (s : String) : String :=
  ⟨s.toList.foldr
    (fun c acc =>
      if c = '"' then '\\' :: '"' :: acc
      else if c = '\\' then '\\' :: '\\' :: acc
      else if c = '\n' then '\\' :: 'n' :: acc
      else if c = '\t' then '\\' :: 't' :: acc
      else if c = '\r' then '\\' :: 'r' :: acc
      else c :: acc)
    []⟩

/-- Render one string as a JSON literal. -/
def jsonStr (s : String) : String :=
  "\"" ++ jsonEscape s ++ "\""

/-- Render an answer value at the given indentation. -/
def jsonAns (a : Ans) (ind : String) : String :=
  match a with
  | .s s => jsonStr s
  | .l [] => "[]"
  | .l l =>
    "[\n" ++
      joinWith ",\n" (l.map (fun s => ind ++ "  " ++ jsonStr s)) ++
      "\n" ++ ind ++ "]"

/-- Render one record as an indented JSON object, fields in the insertion
order the script builds its dict (question, pre, choices, answer, type). -/
def jsonRecord (r : QRecord) : String :=
  let fields :=
    [("question", jsonStr r.question)] ++
    (match r.pre with | none => [] | some p => [("pre", jsonStr p)]) ++
    (match r.choices with
     | none => []
     | some cs => [("choices", jsonAns (.l cs) "    ")]) ++
    (match r.answer with
     | none => [] | some a => [("answer", jsonAns a "    ")]) ++
    (match r.qtype with | none => [] | some t => [("type", jsonStr t)]) ++
    (match r.img with | none => [] | some u => [("img", jsonStr u)])
  "  \x7b\n" ++
    joinWith ",\n"
      (fields.map (fun p => "    " ++ jsonStr p.1 ++ ": " ++ p.2)) ++
    "\n  \x7d"

/-- `json.dump(questions, f, indent=2, ensure_ascii=False)` as a string:
a deterministic rendering of the record sequence. -/
def serializeQuestions (rs : List QRecord) : String :=
  match rs with
  | [] => "[]"
  | _ => "[\n" ++ joinWith ",\n" (rs.map jsonRecord) ++ "\n]"

/-! ## Lemmas about the text normalizer -/

theorem collapseAux_space_eq (b : Bool) (cs : List Char) :
    ∀ c ∈ collapseAux b cs, isPySpace c = true → c = ' ' := by
  induction cs generalizing b with
  | nil => simp [collapseAux]
  | cons c rest ih =>
    intro x hx hsp
    simp only [collapseAux] at hx
    by_cases h : isPySpace c
    · simp only [h, if_true] at hx
      cases b with
      | true => exact ih true x hx hsp
      | false =>
        simp at hx
        rcases hx with h1 | h1
        · exact h1
        · exact ih true x h1 hsp
    · simp only [h, if_false, Bool.false_eq_true, List.mem_cons] at hx
      rcases hx with h1 | h1
      · subst h1; exact absurd hsp (by simp [h])
      · exact ih false x h1 hsp

theorem collapseAux_true_head (cs : List Char) :
    ∀ c, (collapseAux true cs).head? = some c → isPySpace c = false := by
  induction cs with
  | nil => simp [collapseAux]
  | cons c rest ih =>
    intro x hx
    simp only [collapseAux] at hx
    by_cases h : isPySpace c
    · simp only [h, if_true] at hx; exact ih x hx
    · simp only [h, if_false, Bool.false_eq_true, List.head?_cons,
        Option.some.injEq] at hx
      subst hx; simpa using h

/-- No two adjacent whitespace characters in the collapsed output. -/
theorem collapseAux_chain (b : Bool) (cs : List Char) :
    (collapseAux b cs).Chain'
      (fun a c => ¬(isPySpace a = true ∧ isPySpace c = true)) := by
  induction cs generalizing b with
  | nil => simp [collapseAux]
  | cons c rest ih =>
    simp only [collapseAux]
    by_cases h : isPySpace c
    · simp only [h, if_true]
      cases b with
      | true => exact ih true
      | false =>
        simp only [Bool.false_eq_true, if_false]
        refine List.chain'_cons'.mpr ⟨?_, ih true⟩
        intro y hy
        intro hcon
        have := collapseAux_true_head rest y hy
        simp [this] at hcon
    · simp only [h, if_false, Bool.false_eq_true]
      refine List.chain'_cons'.mpr ⟨?_, ih false⟩
      intro y hy hcon
      simp [h] at hcon

theorem dropTrail_prefix (p : Char → Bool) (cs : List Char) :
    dropTrail p cs <+: cs := by
  have h : (dropTrail p cs).reverse <:+ cs.reverse := by
    simp only [dropTrail, List.reverse_reverse]
    exact List.dropWhile_suffix p
  exact List.reverse_suffix.mp (by simpa using h)

theorem pyStripList_part (cs : List Char) : pyStripList cs <:+: cs := by
  have h1 : pyStripList cs <+: cs.dropWhile isPySpace :=
    dropTrail_prefix _ _
  have h2 : cs.dropWhile isPySpace <:+ cs := List.dropWhile_suffix _
  exact h1.isInfix.trans h2.isInfix

theorem dropWhile_head_not (p : Char → Bool) (cs : List Char) :
    ∀ c, (cs.dropWhile p).head? = some c → p c = false := by
  induction cs with
  | nil => simp
  | cons c rest ih =>
    intro x hx
    by_cases h : p c
    · rw [List.dropWhile_cons_of_pos h] at hx; exact ih x hx
    · rw [List.dropWhile_cons_of_neg h] at hx
      simp at hx; subst hx; simpa using h

theorem pyStripList_head (cs : List Char) :
    ∀ c, (pyStripList cs).head? = some c → isPySpace c = false := by
  intro c hc
  have hpre : pyStripList cs <+: cs.dropWhile isPySpace :=
    dropTrail_prefix _ _
  obtain ⟨t, ht⟩ := hpre
  have : (cs.dropWhile isPySpace).head? = some c := by
    rw [← ht]
    cases hps : pyStripList cs with
    | nil => rw [hps] at hc; simp at hc
    | cons a l =>
      rw [hps] at hc; simp at hc; subst hc; simp
  exact dropWhile_head_not _ _ c this

theorem pyStripList_getLast (cs : List Char) :
    ∀ c, (pyStripList cs).getLast? = some c → isPySpace c = false := by
  intro c hc
  have h1 : (pyStripList cs).reverse.head? = some c := by
    rw [List.head?_reverse]; exact hc
  have h2 : (pyStripList cs).reverse =
      (cs.dropWhile isPySpace).reverse.dropWhile isPySpace := by
    simp [pyStripList, dropTrail]
  rw [h2] at h1
  exact dropWhile_head_not _ _ c h1

/-- The normalized-shape facts for any `clean_text` output. -/
theorem clean_text_shape (s : String) :
    (∀ c ∈ (clean_text s).toList, isPySpace c = true → c = ' ') ∧
    (clean_text s).toList.Chain'
      (fun a c => ¬(isPySpace a = true ∧ isPySpace c = true)) ∧
    (∀ c, (clean_text s).toList.head? = some c → isPySpace c = false) ∧
    (∀ c, (clean_text s).toList.getLast? = some c → isPySpace c = false) := by
  by_cases hs : s = ""
  · simp [clean_text, hs]
  · have hrep : (clean_text s).toList =
        pyStripList (collapseWs (unescapeList s.toList)) := by
      simp [clean_text, hs, pyStrip]
    rw [hrep]
    have hinf : pyStripList (collapseWs (unescapeList s.toList)) <:+:
        collapseWs (unescapeList s.toList) := pyStripList_part _
    refine ⟨?_, ?_, pyStripList_head _, pyStripList_getLast _⟩
    · intro c hc hsp
      exact collapseAux_space_eq false (unescapeList s.toList) c
        (hinf.subset hc) hsp
    · exact List.Chain'.infix
        (collapseAux_chain false (unescapeList s.toList)) hinf

/-- C6: the text normalizer is total over strings: empty input yields the
empty string; the entity-decoding example `"What&nbsp;is&nbsp;&amp;nbsp;?"`
normalizes to `"What is &nbsp;?"` (one decoding round, nested escaping left
literal); and on every input the output's whitespace is reduced to single
interior ASCII spaces with nothing at either end. -/
theorem C6_clean_text_total_and_example :
    clean_text "" = "" ∧
    clean_text "What&nbsp;is&nbsp;&amp;nbsp;?" = "What is &nbsp;?" ∧
    ∀ s : String,
      (∀ c ∈ (clean_text s).toList, isPySpace c = true → c = ' ') ∧
      (clean_text s).toList.Chain'
        (fun a c => ¬(isPySpace a = true ∧ isPySpace c = true)) ∧
      (∀ c, (clean_text s).toList.head? = some c → isPySpace c = false) ∧
      (∀ c, (clean_text s).toList.getLast? = some c → isPySpace c = false) :=
  ⟨by decide, by decide, clean_text_shape⟩

deriving instance DecidableEq for Ctx

/-! ## Example documents used by the witnesses -/

/-- Attribute-free tag with the given children. -/
def mkTag (t : String) (ch : List Node) : Node :=
  .tag t {} (nodesOf ch)

/-- A `span` styled with a color (the correct-answer export convention). -/
def spanColor (s : String) : Node :=
  .tag "span" { style := some "color: #0f0" } (nodesOf [.text s])

/-- A plain list item. -/
def liPlain (s : String) : Node :=
  mkTag "li" [.text s]

/-- A list item marked correct through a colored span. -/
def liCorrect (s : String) : Node :=
  mkTag "li" [spanColor s]

/-! ## C7: determinism -/

/-- C7: extraction is deterministic: identical input documents produce
identical record sequences and identical serialized JSON output. -/
theorem C7_extraction_deterministic (d1 d2 : NodeList) (h : d1 = d2) :
    extract_quiz_data d1 = extract_quiz_data d2 ∧
    serializeQuestions (extract_quiz_data d1) =
      serializeQuestions (extract_quiz_data d2) := by
  subst h; exact ⟨rfl, rfl⟩

/-- A small two-question document. -/
def exDocC7 : NodeList := nodesOf
  [mkTag "p" [mkTag "strong" [.text "2. Which option is correct?"]],
   mkTag "ul" [liPlain "alpha", liCorrect "beta"],
   mkTag "p" [mkTag "b" [.text "1. Refer to the exhibit. Where?"]]]

theorem C7_extraction_deterministic_witness :
    exDocC7 = exDocC7 ∧
    (extract_quiz_data exDocC7 = extract_quiz_data exDocC7 ∧
      serializeQuestions (extract_quiz_data exDocC7) =
        serializeQuestions (extract_quiz_data exDocC7)) :=
  ⟨rfl, C7_extraction_deterministic exDocC7 exDocC7 rfl⟩

/-! ## C4: the no-choices policy -/

/-- Shared content of the no-choices policy: with an empty choice
accumulator, an anchor yields a `special` record or nothing, by the
keyword test. -/
theorem noChoicesPolicy (doc : NodeList) (e : Ctx)
    (he : e ∈ sortedAnchors doc)
    (hno : (scanWalk (walkOf e) {}).choices = []) :
    if specialKeywords.any
        (fun k => isSubstr k (strLower (clean_text e.node.getText))) then
      processAnchor e = some
        { question := clean_text e.node.getText,
          pre := if falsyOpt (scanWalk (walkOf e) {}).pre then none
                 else (scanWalk (walkOf e) {}).pre,
          choices := some [],
          answer := some (.s "See image for the answer"),
          qtype := some "special" } ∧
      ∀ r, processAnchor e = some r → r ∈ extract_quiz_data doc
    else processAnchor e = none := by
  have hext : extract_quiz_data doc = (sortedAnchors doc).filterMap processAnchor :=
    rfl
  split
  case isTrue h =>
    refine ⟨?_, ?_⟩
    · simp [processAnchor, assemble, hno, h]
    · intro r hr
      rw [hext]
      exact List.mem_filterMap.mpr ⟨e, he, hr⟩
  case isFalse h =>
    simp [processAnchor, assemble, hno, h]

/-- C4: an anchored question whose scan captured no choices is emitted as a
`special` record (empty choice list, image-answer sentinel) exactly when
its normalized question text, lowercased, contains one of the special
keywords; otherwise no record for it is produced at all. -/
theorem C4_no_choices_policy (doc : NodeList) (e : Ctx)
    (he : e ∈ sortedAnchors doc)
    (hno : (scanWalk (walkOf e) {}).choices = []) :
    if specialKeywords.any
        (fun k => isSubstr k (strLower (clean_text e.node.getText))) then
      processAnchor e = some
        { question := clean_text e.node.getText,
          pre := if falsyOpt (scanWalk (walkOf e) {}).pre then none
                 else (scanWalk (walkOf e) {}).pre,
          choices := some [],
          answer := some (.s "See image for the answer"),
          qtype := some "special" } ∧
      ∀ r, processAnchor e = some r → r ∈ extract_quiz_data doc
    else processAnchor e = none :=
  noChoicesPolicy doc e he hno

/-- A document with one special question (no choice list) for the C4
witness. -/
def exDocC4 : NodeList := nodesOf
  [mkTag "p" [mkTag "strong" [.text "7. Refer to the exhibit. What now?"]],
   mkTag "p" [.text "nothing here"]]

/-- The context of the single anchor of `exDocC4`. -/
def exCtxC4 : Ctx :=
  ⟨mkTag "strong" [.text "7. Refer to the exhibit. What now?"], [],
   [mkTag "p" [.text "nothing here"]]⟩

theorem C4_no_choices_policy_witness :
    exCtxC4 ∈ sortedAnchors exDocC4 ∧
    (scanWalk (walkOf exCtxC4) {}).choices = [] ∧
    (if specialKeywords.any
        (fun k => isSubstr k (strLower (clean_text exCtxC4.node.getText))) then
      processAnchor exCtxC4 = some
        { question := clean_text exCtxC4.node.getText,
          pre := if falsyOpt (scanWalk (walkOf exCtxC4) {}).pre then none
                 else (scanWalk (walkOf exCtxC4) {}).pre,
          choices := some [],
          answer := some (.s "See image for the answer"),
          qtype := some "special" } ∧
      ∀ r, processAnchor exCtxC4 = some r → r ∈ extract_quiz_data exDocC4
    else processAnchor exCtxC4 = none) :=
  ⟨by decide, by decide,
    C4_no_choices_policy exDocC4 exCtxC4 (by decide) (by decide)⟩

/-! ## Characterizing the scan -/

/-- The list node the scan consults: the first `ul` reached before a
new-question paragraph stops the walk (every other tag is walked over,
`pre` included). -/
def scanFirstUl : List Node → Option Node
  | [] => none
  | n :: rest =>
    if n.tagName = "ul" then some n
    else if n.tagName = "p" then
      if pIsNewQuestion n then none else scanFirstUl rest
    else scanFirstUl rest

/-- The scan's choices and correct answers come precisely from the first
consulted `ul` (none means none at all). -/
theorem scanWalk_split (walk : List Node) (st : ScanSt) :
    (scanWalk walk st).choices =
      st.choices ++ (match scanFirstUl walk with
        | none => []
        | some u => (ulChoices (ulLis u)).1) ∧
    (scanWalk walk st).corrects =
      st.corrects ++ (match scanFirstUl walk with
        | none => []
        | some u => (ulChoices (ulLis u)).2) := by
  induction walk generalizing st with
  | nil => simp [scanWalk, scanFirstUl]
  | cons n rest ih =>
    by_cases hu : n.tagName = "ul"
    · simp [scanWalk, scanFirstUl, hu]
    · by_cases hp : n.tagName = "p"
      · by_cases hq : pIsNewQuestion n
        · simp [scanWalk, scanFirstUl, hu, hp, hq]
        · simpa [scanWalk, scanFirstUl, hu, hp, hq] using ih st
      · by_cases hpre : n.tagName = "pre"
        · have hih := ih (if falsyOpt st.pre = true then
            { st with pre := some (preClean n.getText) } else st)
          have hch : (if falsyOpt st.pre = true then
              { st with pre := some (preClean n.getText) }
              else st).choices = st.choices := by
            split <;> rfl
          have hco : (if falsyOpt st.pre = true then
              { st with pre := some (preClean n.getText) }
              else st).corrects = st.corrects := by
            split <;> rfl
          rw [hch, hco] at hih
          simpa [scanWalk, scanFirstUl, hu, hp, hpre] using hih
        · simpa [scanWalk, scanFirstUl, hu, hp, hpre] using ih st

/-- A `ul` whose items all normalize to empty text contributes no choices
and no correct answers. -/
theorem ulChoices_all_empty (lis : List Node)
    (h : ∀ li ∈ lis, clean_text li.getText = "") :
    ulChoices lis = ([], []) := by
  have main : ∀ acc : List String × List String,
      lis.foldl
        (fun acc li =>
          let ct := clean_text li.getText
          if ct = "" then acc
          else
            (acc.1 ++ [ct], if liDetected li then acc.2 ++ [ct] else acc.2))
        acc = acc := by
    induction lis with
    | nil => intro acc; rfl
    | cons li rest ih =>
      intro acc
      have hli : clean_text li.getText = "" := h li (by simp)
      simp only [List.foldl_cons, hli, if_true]
      exact ih (fun x hx => h x (by simp [hx])) acc
  exact main ([], [])

/-! ## C10: a choice list whose items all normalize empty -/

/-- C10: when the first list node the scan consults contains only items
whose normalized text is empty, the question is handled exactly by the
no-choices policy: no choices are recorded, and the anchor yields a
`special` record or nothing according to the keyword test — even though a
choice list was present. -/
theorem C10_empty_items_ul (doc : NodeList) (e : Ctx) (u : Node)
    (he : e ∈ sortedAnchors doc)
    (hu : scanFirstUl (walkOf e) = some u)
    (hempty : ∀ li ∈ ulLis u, clean_text li.getText = "") :
    (scanWalk (walkOf e) {}).choices = [] ∧
    (if specialKeywords.any
        (fun k => isSubstr k (strLower (clean_text e.node.getText))) then
      processAnchor e = some
        { question := clean_text e.node.getText,
          pre := if falsyOpt (scanWalk (walkOf e) {}).pre then none
                 else (scanWalk (walkOf e) {}).pre,
          choices := some [],
          answer := some (.s "See image for the answer"),
          qtype := some "special" } ∧
      ∀ r, processAnchor e = some r → r ∈ extract_quiz_data doc
    else processAnchor e = none) := by
  have hch : (scanWalk (walkOf e) {}).choices = [] := by
    have h1 := (scanWalk_split (walkOf e) {}).1
    rw [hu] at h1
    simpa [ulChoices_all_empty (ulLis u) hempty] using h1
  exact ⟨hch, noChoicesPolicy doc e he hch⟩

/-- A document whose only choice list holds nothing but blank items. -/
def exDocC10 : NodeList := nodesOf
  [mkTag "p" [mkTag "strong" [.text "4. Match the following items."]],
   mkTag "ul" [liPlain "  ", liPlain ""]]

/-- The context of the single anchor of `exDocC10`. -/
def exCtxC10 : Ctx :=
  ⟨mkTag "strong" [.text "4. Match the following items."], [],
   [mkTag "ul" [liPlain "  ", liPlain ""]]⟩

theorem C10_empty_items_ul_witness :
    exCtxC10 ∈ sortedAnchors exDocC10 ∧
    scanFirstUl (walkOf exCtxC10) = some (mkTag "ul" [liPlain "  ", liPlain ""]) ∧
    (∀ li ∈ ulLis (mkTag "ul" [liPlain "  ", liPlain ""]),
      clean_text li.getText = "") ∧
    ((scanWalk (walkOf exCtxC10) {}).choices = [] ∧
      (if specialKeywords.any
          (fun k => isSubstr k (strLower (clean_text exCtxC10.node.getText))) then
        processAnchor exCtxC10 = some
          { question := clean_text exCtxC10.node.getText,
            pre := if falsyOpt (scanWalk (walkOf exCtxC10) {}).pre then none
                   else (scanWalk (walkOf exCtxC10) {}).pre,
            choices := some [],
            answer := some (.s "See image for the answer"),
            qtype := some "special" } ∧
        ∀ r, processAnchor exCtxC10 = some r → r ∈ extract_quiz_data exDocC10
      else processAnchor exCtxC10 = none)) :=
  ⟨by decide, by decide, by decide,
    C10_empty_items_ul exDocC10 exCtxC10 (mkTag "ul" [liPlain "  ", liPlain ""])
      (by decide) (by decide) (by decide)⟩

/-! ## Provenance of records carrying choices -/

/-- `ulChoices` in closed form: the choices are the non-blank items'
normalized texts in item order, the correct answers the non-blank detected
items' normalized texts in item order. -/
theorem ulChoices_eq (lis : List Node) :
    ulChoices lis =
      ((lis.filter (fun li => !(clean_text li.getText == ""))).map
          (fun li => clean_text li.getText),
       (lis.filter (fun li =>
            !(clean_text li.getText == "") && liDetected li)).map
          (fun li => clean_text li.getText)) := by
  have main : ∀ acc : List String × List String,
      lis.foldl
        (fun acc li =>
          let ct := clean_text li.getText
          if ct = "" then acc
          else
            (acc.1 ++ [ct], if liDetected li then acc.2 ++ [ct] else acc.2))
        acc =
        (acc.1 ++ ((lis.filter (fun li => !(clean_text li.getText == ""))).map
            (fun li => clean_text li.getText)),
         acc.2 ++ ((lis.filter (fun li =>
              !(clean_text li.getText == "") && liDetected li)).map
            (fun li => clean_text li.getText))) := by
    induction lis with
    | nil => intro acc; simp
    | cons li rest ih =>
      intro acc
      by_cases hct : clean_text li.getText = ""
      · simp [hct, ih acc]
      · by_cases hdet : liDetected li
        · simp [hct, hdet, ih]
        · simp [hct, hdet, ih]
  have := main ([], [])
  simpa [ulChoices] using this

/-- When the scan found no choices, any record assembled has an explicit
empty choice list. -/
theorem assemble_choices_empty (qtext : String) (st : ScanSt)
    (h : st.choices = []) (r : QRecord) :
    assemble qtext st = some r → r.choices = some [] := by
  intro has
  simp only [assemble, h, List.isEmpty_nil, Bool.not_true, Bool.false_eq_true,
    if_false] at has
  split at has
  · rw [Option.some_inj] at has
    rw [← has]
  · exact absurd has (by simp)

/-- Every emitted record with a non-empty choice list originates from an
anchor whose scan consulted a unique first `ul`; the record's fields are
exactly what that `ul` determines. -/
theorem record_provenance (doc : NodeList) (r : QRecord)
    (hr : r ∈ extract_quiz_data doc) (cs : List String)
    (hcs : r.choices = some cs) (hne : cs ≠ []) :
    ∃ e ∈ sortedAnchors doc, ∃ u : Node,
      scanFirstUl (walkOf e) = some u ∧
      r.question = clean_text e.node.getText ∧
      cs = (ulChoices (ulLis u)).1 ∧
      r.answer = some
        (match (ulChoices (ulLis u)).2 with
         | [a] => Ans.s a
         | [] => Ans.s "Unknown"
         | l => Ans.l l) := by
  obtain ⟨e, he, hpe⟩ := List.mem_filterMap.mp hr
  refine ⟨e, he, ?_⟩
  have hsplit := scanWalk_split (walkOf e) {}
  cases hu : scanFirstUl (walkOf e) with
  | none =>
    rw [hu] at hsplit
    simp only [List.nil_append] at hsplit
    have hchoices : (scanWalk (walkOf e) {}).choices = [] := by
      simpa using hsplit.1
    exfalso
    have hempty : r.choices = some [] :=
      assemble_choices_empty _ _ hchoices r hpe
    rw [hcs] at hempty
    simp at hempty
    exact hne hempty
  | some u =>
    rw [hu] at hsplit
    simp only [List.nil_append] at hsplit
    have hchoices : (scanWalk (walkOf e) {}).choices = (ulChoices (ulLis u)).1 := by
      simpa using hsplit.1
    have hcorrects : (scanWalk (walkOf e) {}).corrects = (ulChoices (ulLis u)).2 := by
      simpa using hsplit.2
    refine ⟨u, rfl, ?_⟩
    by_cases hch : (ulChoices (ulLis u)).1 = []
    · exfalso
      have hempty : r.choices = some [] :=
        assemble_choices_empty _ _ (hchoices.trans hch) r hpe
      rw [hcs] at hempty
      simp at hempty
      exact hne hempty
    · have hpe' : assemble (clean_text e.node.getText)
          (scanWalk (walkOf e) {}) = some r := hpe
      simp only [assemble, hchoices, hcorrects] at hpe'
      rw [if_pos (by simpa using hch)] at hpe'
      rw [Option.some_inj] at hpe'
      subst hpe'
      simp at hcs
      exact ⟨rfl, hcs.symm, rfl⟩

/-! ## C2: the answer shape -/

/-- C2: every emitted record with a non-empty choice list gets its answer
from the count of detected-correct items of the consulted `ul`: none makes
it the string `"Unknown"`, exactly one makes it that item's normalized text
as a single string, two or more make it the list of exactly the correct
items' normalized texts in choice-list order. -/
theorem C2_answer_shape (doc : NodeList) (r : QRecord)
    (hr : r ∈ extract_quiz_data doc) (cs : List String)
    (hcs : r.choices = some cs) (hne : cs ≠ []) :
    ∃ e ∈ sortedAnchors doc, ∃ u : Node,
      scanFirstUl (walkOf e) = some u ∧
      cs = ((ulLis u).filter (fun li => !(clean_text li.getText == ""))).map
        (fun li => clean_text li.getText) ∧
      (((ulLis u).filter (fun li =>
          !(clean_text li.getText == "") && liDetected li)).map
          (fun li => clean_text li.getText) = [] →
        r.answer = some (.s "Unknown")) ∧
      (∀ a, ((ulLis u).filter (fun li =>
          !(clean_text li.getText == "") && liDetected li)).map
          (fun li => clean_text li.getText) = [a] →
        r.answer = some (.s a)) ∧
      (2 ≤ (((ulLis u).filter (fun li =>
          !(clean_text li.getText == "") && liDetected li)).map
          (fun li => clean_text li.getText)).length →
        r.answer = some (.l (((ulLis u).filter (fun li =>
          !(clean_text li.getText == "") && liDetected li)).map
          (fun li => clean_text li.getText)))) := by
  obtain ⟨e, he, u, hu, _, hcseq, hans⟩ :=
    record_provenance doc r hr cs hcs hne
  refine ⟨e, he, u, hu, ?_, ?_, ?_, ?_⟩
  · rw [hcseq, ulChoices_eq]
  · intro hc
    rw [hans, ulChoices_eq]
    simp only [hc]
  · intro a hc
    rw [hans, ulChoices_eq]
    simp only [hc]
  · intro hlen
    rw [hans, ulChoices_eq]
    simp only []
    cases hc : ((ulLis u).filter (fun li =>
        !(clean_text li.getText == "") && liDetected li)).map
        (fun li => clean_text li.getText) with
    | nil => rw [hc] at hlen; simp at hlen
    | cons a t =>
      cases t with
      | nil => rw [hc] at hlen; simp at hlen
      | cons b t2 => rfl

/-- A two-correct-answers document for the C2 witness. -/
def exDocC2 : NodeList := nodesOf
  [mkTag "p" [mkTag "strong" [.text "9. Choose two of these?"]],
   mkTag "ul" [liCorrect "a", liPlain "b", liCorrect "c"]]

/-- The record `exDocC2` produces. -/
def exRecC2 : QRecord :=
  { question := "9. Choose two of these?", choices := some ["a", "b", "c"],
    answer := some (.l ["a", "c"]) }

theorem C2_answer_shape_witness :
    exRecC2 ∈ extract_quiz_data exDocC2 ∧
    exRecC2.choices = some ["a", "b", "c"] ∧
    ["a", "b", "c"] ≠ ([] : List String) ∧
    (∃ e ∈ sortedAnchors exDocC2, ∃ u : Node,
      scanFirstUl (walkOf e) = some u ∧
      ["a", "b", "c"] =
        ((ulLis u).filter (fun li => !(clean_text li.getText == ""))).map
          (fun li => clean_text li.getText) ∧
      (((ulLis u).filter (fun li =>
          !(clean_text li.getText == "") && liDetected li)).map
          (fun li => clean_text li.getText) = [] →
        exRecC2.answer = some (.s "Unknown")) ∧
      (∀ a, ((ulLis u).filter (fun li =>
          !(clean_text li.getText == "") && liDetected li)).map
          (fun li => clean_text li.getText) = [a] →
        exRecC2.answer = some (.s a)) ∧
      (2 ≤ (((ulLis u).filter (fun li =>
          !(clean_text li.getText == "") && liDetected li)).map
          (fun li => clean_text li.getText)).length →
        exRecC2.answer = some (.l (((ulLis u).filter (fun li =>
          !(clean_text li.getText == "") && liDetected li)).map
          (fun li => clean_text li.getText))))) :=
  ⟨by decide, by decide, by decide,
    C2_answer_shape exDocC2 exRecC2 (by decide) ["a", "b", "c"] (by decide)
      (by decide)⟩

/-! ## C3: the correct-answer detection predicate -/

mutual
/-- The claim's reading of the styled-node test, which also accepts bold
(`b`) nodes: does this node or a tag descendant match
`['span', 'strong', 'b']` with a color style? -/
def Node.coloredHereB : Node → Bool
  | .text _ => false
  | .tag t a ch =>
    ((t = "span" || t = "strong" || t = "b") && styleHasColor a.style) ||
      NodeList.coloredInB ch

/-- Claim-side styled-node search over a sibling sequence. -/
def NodeList.coloredInB : NodeList → Bool
  | .nil => false
  | .cons n rest => n.coloredHereB || NodeList.coloredInB rest
end

/-- The claim's detection predicate: a color-styled `span`, `strong` or `b`
descendant, or the `correct_answer` class on the item itself. -/
def claimLiDetected (li : Node) : Bool :=
  NodeList.coloredInB li.children ||
    li.attrs.classes.contains "correct_answer"

/-- A list item whose only marking is a color-styled `b` node. -/
def exLiB : Node :=
  .tag "li" {}
    (nodesOf [.tag "b" { style := some "color: red" } (nodesOf [.text "4"])])

/-- A document whose sole marked item uses a bold (`b`) color style. -/
def exDocC3 : NodeList := nodesOf
  [mkTag "p" [mkTag "strong" [.text "1. Which one is four?"]],
   mkTag "ul" [exLiB, liPlain "3"]]

/-- C3 counterexample: this item contains an emphasized/bold (`b`) node
whose style carries a color declaration — so the claim says it is detected
as correct — yet the script's test looks only for `span`/`strong`, leaves
the item undetected, and emits `answer = "Unknown"` instead of `"4"`. -/
theorem C3_detection_counterexample :
    claimLiDetected exLiB = true ∧
    clean_text exLiB.getText = "4" ∧
    liDetected exLiB = false ∧
    extract_quiz_data exDocC3 =
      [{ question := "1. Which one is four?", choices := some ["4", "3"],
         answer := some (.s "Unknown") }] := by
  refine ⟨by decide, by decide, by decide, by decide⟩

/-- C3 (amended): an item of the consulted choice list contributes to the
correct answers if and only if its normalized text is non-empty and it
either contains a color-styled `span` or `strong` descendant (bold `b`
nodes do not count) or itself carries the `correct_answer` class; the
emitted answer is shaped from exactly those items' texts. -/
theorem C3_detection_amended (doc : NodeList) (r : QRecord)
    (hr : r ∈ extract_quiz_data doc) (cs : List String)
    (hcs : r.choices = some cs) (hne : cs ≠ []) :
    ∃ e ∈ sortedAnchors doc, ∃ u : Node,
      scanFirstUl (walkOf e) = some u ∧
      r.answer = some
        (match ((ulLis u).filter (fun li =>
            !(clean_text li.getText == "") &&
            (NodeList.coloredIn li.children ||
              li.attrs.classes.contains "correct_answer"))).map
            (fun li => clean_text li.getText) with
         | [a] => Ans.s a
         | [] => Ans.s "Unknown"
         | l => Ans.l l) := by
  obtain ⟨e, he, u, hu, _, _, hans⟩ :=
    record_provenance doc r hr cs hcs hne
  refine ⟨e, he, u, hu, ?_⟩
  rw [hans, ulChoices_eq]
  rfl

def exDocC3W : NodeList := nodesOf
  [mkTag "p" [mkTag "strong" [.text "2. Pick the single right item?"]],
   mkTag "ul" [liPlain "x", liCorrect "y"]]

def exRecC3W : QRecord :=
  { question := "2. Pick the single right item?", choices := some ["x", "y"],
    answer := some (.s "y") }

theorem C3_detection_amended_witness :
    exRecC3W ∈ extract_quiz_data exDocC3W ∧
    exRecC3W.choices = some ["x", "y"] ∧
    ["x", "y"] ≠ ([] : List String) ∧
    (∃ e ∈ sortedAnchors exDocC3W, ∃ u : Node,
      scanFirstUl (walkOf e) = some u ∧
      exRecC3W.answer = some
        (match ((ulLis u).filter (fun li =>
            !(clean_text li.getText == "") &&
            (NodeList.coloredIn li.children ||
              li.attrs.classes.contains "correct_answer"))).map
            (fun li => clean_text li.getText) with
         | [a] => Ans.s a
         | [] => Ans.s "Unknown"
         | l => Ans.l l)) :=
  ⟨by decide, by decide, by decide,
    C3_detection_amended exDocC3W exRecC3W (by decide) ["x", "y"] (by decide)
      (by decide)⟩

/-! ## C5: preformatted-block capture -/

/-- A question whose first `pre` block is whitespace-only, followed by a
second `pre` block and the choice list. -/
def exDocC5 : NodeList := nodesOf
  [mkTag "p" [mkTag "strong" [.text "1. What output is shown?"]],
   mkTag "pre" [.text "  \n \t "],
   mkTag "pre" [.text " hello \n\n world "],
   mkTag "ul" [liCorrect "a", liPlain "b"]]

/-- C5, evaluated at the failing input: the first `pre` block cleans to the
empty string, which is falsy, so the `if not pre_content` guard re-arms
and the SECOND block's content is kept — the script's own comment and the
claim say subsequent blocks are ignored.  The scan does continue past both
`pre` blocks to the choice list. -/
theorem C5_pre_first_block_bug :
    preClean "  \n \t " = "" ∧
    preClean " hello \n\n world " = "hello\nworld" ∧
    extract_quiz_data exDocC5 =
      [{ question := "1. What output is shown?",
         pre := some "hello\nworld",
         choices := some ["a", "b"],
         answer := some (.s "a") }] := by
  refine ⟨by decide, by decide, by decide⟩

/-! ## C8: the validator's error conditions -/

/-- The answer values of a record (one string or a list of strings). -/
def ansValues : Option Ans → List String
  | none => []
  | some (.s a) => [a]
  | some (.l l) => l

/-- The error conditions exactly as the claim lists them (modelled from the
claim's words, to compare with the code's validator): trivial question
text, choices present but no (falsy) answer, a non-special record's answer
value missing from its choices, or a present `img` that is not a valid
absolute URL. -/
def claimListedError (r : QRecord) : Bool :=
  decide ((pyStrip r.question).length ≤ 5) ||
  (decide ((r.choices.getD []).length > 0) && answerFalsy r.answer) ||
  (decide (r.qtype.getD "regular" ≠ "special") &&
    (ansValues r.answer).any (fun a => !(r.choices.getD []).contains a)) ||
  (match r.img with
   | none => false
   | some u => !is_valid_url u)

/-- A document whose extracted record carries `answer = "Unknown"` with
`"Unknown"` among the choices. -/
def exDocC8 : NodeList := nodesOf
  [mkTag "p" [mkTag "strong" [.text "1. Which answer fits best?"]],
   mkTag "ul" [liPlain "Unknown", liPlain "b"]]

/-- The record `exDocC8` produces. -/
def exRecC8 : QRecord :=
  { question := "1. Which answer fits best?",
    choices := some ["Unknown", "b"], answer := some (.s "Unknown") }

/-- C8 counterexample: the validator errs on this extractor-produced record
(`Answer is 'Unknown'`) although none of the claim's listed conditions
holds — the question is non-trivial, an answer is present, every answer
value is a member of the choices, and there is no `img` field — and the
process exits 1. -/
theorem C8_validator_counterexample :
    extract_quiz_data exDocC8 = [exRecC8] ∧
    claimListedError exRecC8 = false ∧
    validateRecord exRecC8 = ["Answer is Unknown"] ∧
    mainExitCode (extract_quiz_data exDocC8) = 1 := by
  refine ⟨by decide, by decide, by decide, by decide⟩

/-- The amended error conditions: the claim's list extended with the
`answer == "Unknown"` sentinel check, and the membership check gated the
way the script gates it (answer truthy, not the sentinel, record not
special, choices present). -/
def amendedErrorCond (r : QRecord) : Bool :=
  decide ((pyStrip r.question).length ≤ 5) ||
  (decide ((r.choices.getD []).length > 0) &&
    (answerFalsy r.answer || answerIsUnknown r.answer ||
      (!answerFalsy r.answer && !answerIsUnknown r.answer &&
        decide (r.qtype.getD "regular" ≠ "special") &&
        (ansValues r.answer).any
          (fun a => !(r.choices.getD []).contains a)))) ||
  (match r.img with
   | none => false
   | some u => !is_valid_url u)


/-- The per-record characterization of the validator's error report. -/
theorem validateRecord_ne_nil_iff (r : QRecord) :
    validateRecord r ≠ [] ↔ amendedErrorCond r = true := by
  obtain ⟨q, pre, ch, ans, ty, img⟩ := r
  simp only [validateRecord, amendedErrorCond]
  rcases ans with _ | ⟨a | al⟩
  · rcases img with _ | u <;> rcases ch with _ | ch <;>
      by_cases hq : (pyStrip q).length ≤ 5 <;>
      simp [hq, answerFalsy, answerIsUnknown, ansValues, List.length_pos,
        List.filterMap_eq_nil_iff, List.any_eq_true] <;>
      tauto
  · rcases img with _ | u <;> rcases ch with _ | ch <;>
      by_cases hq : (pyStrip q).length ≤ 5 <;>
      by_cases ha0 : a = "" <;> by_cases haU : a = "Unknown" <;>
      first
        | (exact absurd (ha0.symm.trans haU) (by decide))
        | (simp [hq, ha0, haU, answerFalsy, answerIsUnknown, ansValues,
            List.length_pos, List.filterMap_eq_nil_iff,
            List.any_eq_true] <;> tauto)
  · rcases ch with _ | ch
    · rcases img with _ | u <;>
        by_cases hq : (pyStrip q).length ≤ 5 <;>
        simp [hq, answerFalsy, answerIsUnknown, ansValues, List.length_pos,
          List.filterMap_eq_nil_iff, List.any_eq_true] <;>
        tauto
    · rcases img with _ | u <;>
        by_cases hq : (pyStrip q).length ≤ 5 <;>
        by_cases hex : ∃ x ∈ al, x ∉ ch <;>
        first
          | (have hnall : ¬∀ a ∈ al, a ∈ ch := by push_neg; exact hex
             simp [hq, hex, hnall, answerFalsy, answerIsUnknown, ansValues,
               List.length_pos, List.filterMap_eq_nil_iff,
               List.any_eq_true] <;> tauto)
          | (have hall : ∀ a ∈ al, a ∈ ch := by
               intro x hx; by_contra hc; exact hex ⟨x, hx, hc⟩
             simp [hq, hex, hall, answerFalsy, answerIsUnknown, ansValues,
               List.length_pos, List.filterMap_eq_nil_iff,
               List.any_eq_true] <;> tauto)

/-- C8 (amended): the validator reports an error for a record exactly for
the listed conditions plus the `answer == "Unknown"` sentinel check, with
the choices-membership check applied only to truthy non-sentinel answers
of non-special records that have choices; and, extraction and write having
succeeded, the process exits 1 precisely when some record reported an
error. -/
theorem C8_validation_amended (rs : List QRecord) :
    (mainExitCode rs = 1 ↔ ∃ r ∈ rs, validateRecord r ≠ []) ∧
    ∀ r : QRecord, validateRecord r ≠ [] ↔ amendedErrorCond r = true := by
  constructor
  · unfold mainExitCode
    by_cases h : validate_questions rs
    · rw [if_pos h]
      constructor
      · intro h0; exact absurd h0 (by decide)
      · rintro ⟨r, hr, hne⟩
        have := (List.all_eq_true.mp h) r hr
        simp only [List.isEmpty_iff] at this
        exact absurd this hne
    · rw [if_neg h]
      have hne : ∃ r ∈ rs, validateRecord r ≠ [] := by
        by_contra hno
        push_neg at hno
        exact h (List.all_eq_true.mpr (fun r hr => by
          simp [List.isEmpty_iff, hno r hr]))
      exact ⟨fun _ => hne, fun _ => rfl⟩
  · exact validateRecord_ne_nil_iff

/-! ## C9: the paragraph pass is redundant -/

/-- A passing anchor pattern always yields a captured index. -/
theorem qPatternTest_qNumOf (cs : List Char) (h : qPatternTest cs = true) :
    qNumOf cs = some (digitsToNat (cs.takeWhile Char.isDigit)) := by
  unfold qPatternTest at h
  rw [Bool.and_eq_true] at h
  obtain ⟨h1, h2⟩ := h
  unfold qNumOf
  rw [if_neg (by simpa using h1)]
  cases hdrop : cs.dropWhile Char.isDigit with
  | nil => rw [hdrop] at h2; simp at h2
  | cons c rest =>
    rw [hdrop] at h2
    by_cases hc : c = '.'
    · subst hc; rfl
    · exfalso
      cases rest with
      | nil => simp at h2
      | cons c2 rest2 =>
        revert h2
        split
        next heq => exact fun _ => absurd (by injection heq) hc
        next => simp

mutual
/-- The nodes of a context annotation of one node are its `selfDesc`. -/
theorem ctxOfNode_nodes (ap aft : List Node) (n : Node) :
    (ctxOfNode ap aft n).map Ctx.node = n.selfDesc := by
  cases n with
  | text s => rfl
  | tag t a ch =>
    simp [ctxOfNode, Node.selfDesc, ctxOfList_nodes aft ch]

/-- The nodes of a context-annotated traversal are the tag descendants. -/
theorem ctxOfList_nodes (ap : List Node) (ns : NodeList) :
    (ctxOfList ap ns).map Ctx.node = ns.tagDesc := by
  cases ns with
  | nil => rfl
  | cons n rest =>
    simp [ctxOfList, NodeList.tagDesc, ctxOfNode_nodes ap (tagsOf rest) n,
      ctxOfList_nodes ap rest]
end

mutual
/-- Tag descendants of a node found inside `selfDesc` stay inside it. -/
theorem selfDesc_trans (x n : Node) (hn : n ∈ x.selfDesc) :
    ∀ m ∈ NodeList.tagDesc n.children, m ∈ x.selfDesc := by
  cases x with
  | text s => simp [Node.selfDesc] at hn
  | tag t a ch =>
    intro m hm
    simp only [Node.selfDesc, List.mem_cons] at hn ⊢
    rcases hn with hn | hn
    · subst hn
      exact Or.inr hm
    · exact Or.inr (tagDesc_trans ch n hn m hm)

/-- Tag descendants of a node found in a traversal stay in the
traversal. -/
theorem tagDesc_trans (ns : NodeList) (n : Node) (hn : n ∈ ns.tagDesc) :
    ∀ m ∈ NodeList.tagDesc n.children, m ∈ ns.tagDesc := by
  cases ns with
  | nil => simp [NodeList.tagDesc] at hn
  | cons y rest =>
    intro m hm
    simp only [NodeList.tagDesc, List.mem_append] at hn ⊢
    rcases hn with hn | hn
    · exact Or.inl (selfDesc_trans y n hn m hm)
    · exact Or.inr (tagDesc_trans rest n hn m hm)
end

/-- `addCand` never drops an already-seen index. -/
theorem addCand_seen_mono (acc : List Nat × List Ctx) (e : Ctx) (q : Nat)
    (h : q ∈ acc.1) : q ∈ (addCand acc e).1 := by
  simp only [addCand]
  split
  · split
    · split
      · exact h
      · exact List.mem_append_left _ h
    · exact h
  · exact h

/-- Seen indices survive the rest of the first pass. -/
theorem pass1_seen_mono (l : List Ctx) :
    ∀ (acc : List Nat × List Ctx) (q : Nat), q ∈ acc.1 →
      q ∈ (l.foldl pass1Step acc).1 := by
  induction l with
  | nil => intro acc q h; exact h
  | cons x rest ih =>
    intro acc q h
    rw [List.foldl_cons]
    apply ih
    simp only [pass1Step]
    split
    · exact addCand_seen_mono acc x q h
    · exact h

/-- When the pattern holds and the index is either seen or appended, it is
in the result of `addCand`. -/
theorem addCand_seen_self (acc : List Nat × List Ctx) (e : Ctx) (q : Nat)
    (hp : qPatternTest (pyStrip e.node.getText).toList = true)
    (hq : qNumOf (pyStrip e.node.getText).toList = some q) :
    q ∈ (addCand acc e).1 := by
  simp only [addCand, hp, if_true, hq]
  split
  next hc => exact by simpa using hc
  next => exact List.mem_append_right _ (by simp)

/-- After the first pass, the index of every pattern-matching `strong`/`b`
entry has been seen. -/
theorem pass1_seen_complete (l : List Ctx) :
    ∀ (acc : List Nat × List Ctx) (e : Ctx), e ∈ l →
      (e.node.tagName = "strong" || e.node.tagName = "b") = true →
      qPatternTest (pyStrip e.node.getText).toList = true →
      ∀ q, qNumOf (pyStrip e.node.getText).toList = some q →
      q ∈ (l.foldl pass1Step acc).1 := by
  induction l with
  | nil => intro acc e he; simp at he
  | cons x rest ih =>
    intro acc e he hsb hp q hq
    rw [List.foldl_cons]
    rcases List.mem_cons.mp he with he | he
    · subst he
      apply pass1_seen_mono
      simp only [pass1Step, hsb, if_true]
      exact addCand_seen_self acc e q hp hq
    · exact ih (pass1Step acc x) e he hsb hp q hq

/-- When the candidate's index is already seen, `addCand` is the
identity. -/
theorem addCand_of_seen (acc : List Nat × List Ctx) (e : Ctx)
    (h : qPatternTest (pyStrip e.node.getText).toList = true →
      ∀ q, qNumOf (pyStrip e.node.getText).toList = some q → q ∈ acc.1) :
    addCand acc e = acc := by
  simp only [addCand]
  split
  next hp =>
    cases hq : qNumOf (pyStrip e.node.getText).toList with
    | none => rfl
    | some q => exact if_pos (List.elem_eq_true_of_mem (h hp q hq))
  next => rfl

/-- The second pass is the identity once every candidate it can meet has a
seen index. -/
theorem pass2_nochange (l : List Ctx) :
    ∀ (init : List Nat × List Ctx),
      (∀ e ∈ l, e.node.tagName = "p" → ∀ se, pCandOf e = some se →
        qPatternTest (pyStrip se.node.getText).toList = true →
        ∀ q, qNumOf (pyStrip se.node.getText).toList = some q →
          q ∈ init.1) →
      l.foldl pass2Step init = init := by
  induction l with
  | nil => intro init _; rfl
  | cons x rest ih =>
    intro init hyp
    have hstep : pass2Step init x = init := by
      simp only [pass2Step]
      split
      next hxp =>
        cases hcand : pCandOf x with
        | none => rfl
        | some se =>
          exact addCand_of_seen init se
            (fun hp q hq =>
              hyp x (by simp) (by simpa using hxp) se hcand hp q hq)
      next => rfl
    rw [List.foldl_cons, hstep]
    exact ih init (fun e he => hyp e (by simp [he]))

/-- The `p`-pass candidate is an annotated `strong` or `b` tag drawn from
the paragraph's descendants. -/
theorem pCandOf_spec (e : Ctx) (se : Ctx) (h : pCandOf e = some se) :
    se ∈ descCtx e ∧
      (se.node.tagName = "strong" ∨ se.node.tagName = "b") := by
  unfold pCandOf at h
  cases hfs : (descCtx e).find? (fun c => c.node.tagName = "strong") with
  | some s1 =>
    rw [hfs] at h
    simp only [Option.orElse] at h
    have hse : s1 = se := by simpa using h
    subst hse
    exact ⟨List.mem_of_find?_eq_some hfs,
      Or.inl (by simpa using List.find?_some hfs)⟩
  | none =>
    rw [hfs] at h
    have hb : (descCtx e).find? (fun c => c.node.tagName = "b") = some se := by
      simpa [Option.orElse] using h
    exact ⟨List.mem_of_find?_eq_some hb,
      Or.inr (by simpa using List.find?_some hb)⟩

/-- C9: the paragraph discovery pass never retains an anchor — every
emphasized node it inspects was already enumerated (with the same pattern
test) by the first pass — so the extractor's output equals that of the
variant with the paragraph pass removed, on every document. -/
theorem C9_paragraph_pass_redundant (doc : NodeList) :
    pass2 (ctxOfList [] doc) (pass1 (ctxOfList [] doc)) =
      pass1 (ctxOfList [] doc) ∧
    extract_quiz_data doc = extract_quiz_data_firstPassOnly doc := by
  have hmain : pass2 (ctxOfList [] doc) (pass1 (ctxOfList [] doc)) =
      pass1 (ctxOfList [] doc) := by
    apply pass2_nochange
    intro e he _ se hcand hp q hq
    obtain ⟨hmem, hsb⟩ := pCandOf_spec e se hcand
    have h1 : se.node ∈ NodeList.tagDesc e.node.children := by
      rw [← ctxOfList_nodes e.afterSelf e.node.children]
      exact List.mem_map_of_mem Ctx.node hmem
    have h2 : e.node ∈ NodeList.tagDesc doc := by
      rw [← ctxOfList_nodes [] doc]
      exact List.mem_map_of_mem Ctx.node he
    have h3 : se.node ∈ NodeList.tagDesc doc :=
      tagDesc_trans doc e.node h2 se.node h1
    have h4 : ∃ e2 ∈ ctxOfList [] doc, e2.node = se.node := by
      rw [← ctxOfList_nodes [] doc] at h3
      exact List.mem_map.mp h3
    obtain ⟨e2, he2, hnode⟩ := h4
    exact pass1_seen_complete (ctxOfList [] doc) ([], []) e2 he2
      (by rw [hnode]; rcases hsb with h | h <;> simp [h])
      (by rw [hnode]; exact hp) q (by rw [hnode]; exact hq)
  refine ⟨hmain, ?_⟩
  unfold extract_quiz_data extract_quiz_data_firstPassOnly sortedAnchors
    foundAnchors
  simp only []
  rw [hmain]

/-! ## C1: output ordering — character-class lemmas -/

/-- A digit is not Python whitespace. -/
theorem isDigit_not_pySpace (c : Char) (h : c.isDigit = true) :
    isPySpace c = false := by
  have h0 : (48 : UInt32) ≤ c.val ∧ c.val ≤ 57 := by
    simpa [Char.isDigit, Char.le_def] using h
  have hv : 48 ≤ c.toNat ∧ c.toNat ≤ 57 :=
    ⟨by exact_mod_cast h0.1, by exact_mod_cast h0.2⟩
  rw [Bool.eq_false_iff]
  intro hsp
  simp only [isPySpace, Bool.or_eq_true, Bool.and_eq_true,
    decide_eq_true_eq] at hsp
  omega

/-- A whitespace character is not an ampersand. -/
theorem pySpace_ne_amp (c : Char) (h : isPySpace c = true) : c ≠ '&' := by
  intro he; subst he; simp [isPySpace] at h

/-- A digit is not an ampersand. -/
theorem isDigit_ne_amp (c : Char) (h : c.isDigit = true) : c ≠ '&' := by
  intro he; subst he; simp [Char.isDigit] at h

/-- A digit is not a period. -/
theorem isDigit_ne_dot (c : Char) (h : c.isDigit = true) : c ≠ '.' := by
  intro he; subst he; simp [Char.isDigit] at h

/-- One canonical step of the decode on a non-ampersand head. -/
theorem unescapeFuel_cons_ne (f : Nat) (c : Char) (rest : List Char)
    (h : c ≠ '&') :
    unescapeFuel (f + 1) (c :: rest) = c :: unescapeFuel f rest := by
  simp [unescapeFuel, h]

/-- Any fuel at least the length decodes the same way. -/
theorem unescapeFuel_congr (n : Nat) :
    ∀ (cs : List Char) (f : Nat), cs.length ≤ f → cs.length ≤ n →
      unescapeFuel f cs = unescapeFuel n cs := by
  induction n with
  | zero =>
    intro cs f _ hn
    have : cs = [] := List.length_eq_zero.mp (Nat.le_zero.mp hn)
    subst this
    cases f <;> rfl
  | succ n ih =>
    intro cs f hf hn
    cases cs with
    | nil => cases f <;> rfl
    | cons c rest =>
      obtain ⟨f2, rfl⟩ : ∃ f2, f = f2 + 1 := by
        cases f with
        | zero => simp at hf
        | succ f2 => exact ⟨f2, rfl⟩
      simp only [List.length_cons] at hf hn
      by_cases hc : c = '&'
      · subst hc
        show unescapeFuel (f2 + 1) ('&' :: rest) =
          unescapeFuel (n + 1) ('&' :: rest)
        simp only [unescapeFuel]
        split
        next ch k heq =>
          rw [ih (rest.drop k) f2 (by simp [List.length_drop]; omega)
            (by simp [List.length_drop]; omega)]
        next heq =>
          rw [ih rest f2 (by omega) (by omega)]
      · rw [unescapeFuel_cons_ne _ _ _ hc, unescapeFuel_cons_ne _ _ _ hc,
          ih rest f2 (by omega) (by omega)]

/-- Decoding distributes over an ampersand-free prefix. -/
theorem unescapeList_append (a b : List Char) (h : ∀ c ∈ a, c ≠ '&') :
    unescapeList (a ++ b) = a ++ unescapeList b := by
  induction a with
  | nil => rfl
  | cons c a2 ih =>
    have hc : c ≠ '&' := h c (by simp)
    show unescapeFuel ((c :: (a2 ++ b)).length) (c :: (a2 ++ b)) = _
    rw [List.length_cons, unescapeFuel_cons_ne _ _ _ hc,
      unescapeFuel_congr ((a2 ++ b).length) (a2 ++ b) ((a2 ++ b).length)
        (Nat.le_refl _) (Nat.le_refl _)]
    rw [show unescapeFuel (a2 ++ b).length (a2 ++ b) = unescapeList (a2 ++ b)
      from rfl]
    rw [ih (fun x hx => h x (by simp [hx]))]
    rfl

/-- Collapsing walks through a non-empty all-non-whitespace block
unchanged and resets the run flag. -/
theorem collapseAux_nonspace (xs : List Char) :
    ∀ (ys : List Char) (b : Bool), xs ≠ [] →
      (∀ c ∈ xs, isPySpace c = false) →
      collapseAux b (xs ++ ys) = xs ++ collapseAux false ys := by
  induction xs with
  | nil => intro ys b hne; exact absurd rfl hne
  | cons x xs2 ih =>
    intro ys b _ h
    have hx : isPySpace x = false := h x (by simp)
    simp only [List.cons_append, collapseAux, hx, Bool.false_eq_true,
      if_false, List.append_eq]
    cases hxs : xs2 with
    | nil => simp
    | cons y ys2 =>
      rw [← hxs]
      rw [ih ys false (by simp [hxs]) (fun c hc => h c (by simp [hc]))]

/-- In run-skipping state, a whitespace block disappears. -/
theorem collapseAux_true_allspace (sp : List Char) :
    ∀ ys : List Char, (∀ c ∈ sp, isPySpace c = true) →
      collapseAux true (sp ++ ys) = collapseAux true ys := by
  induction sp with
  | nil => intro ys _; rfl
  | cons x sp2 ih =>
    intro ys h
    have hx : isPySpace x = true := h x (by simp)
    simp only [List.cons_append, collapseAux, hx, if_true, List.append_eq]
    exact ih ys (fun c hc => h c (by simp [hc]))

/-- A leading whitespace run collapses to a single space. -/
theorem collapseAux_false_space (sp : List Char) (ys : List Char)
    (hne : sp ≠ []) (h : ∀ c ∈ sp, isPySpace c = true) :
    collapseAux false (sp ++ ys) = ' ' :: collapseAux true ys := by
  cases sp with
  | nil => exact absurd rfl hne
  | cons x sp2 =>
    have hx : isPySpace x = true := h x (by simp)
    simp only [List.cons_append, collapseAux, hx, if_true,
      Bool.false_eq_true, if_false, List.append_eq]
    rw [collapseAux_true_allspace sp2 ys (fun c hc => h c (by simp [hc]))]

/-- `takeWhile`/`dropWhile` walk through a block that satisfies the
predicate. -/
theorem takeWhile_dropWhile_prepend (p : Char → Bool) (d : List Char) :
    ∀ ys : List Char, (∀ c ∈ d, p c = true) →
      (d ++ ys).takeWhile p = d ++ ys.takeWhile p ∧
      (d ++ ys).dropWhile p = ys.dropWhile p := by
  induction d with
  | nil => intro ys _; exact ⟨rfl, rfl⟩
  | cons x d2 ih =>
    intro ys h
    have hx : p x = true := h x (by simp)
    obtain ⟨h1, h2⟩ := ih ys (fun c hc => h c (by simp [hc]))
    constructor
    · simp only [List.cons_append, List.takeWhile_cons, hx, if_true, h1]
    · simp only [List.cons_append, List.dropWhile_cons, hx, if_true, h2]

/-- `dropTrail` keeps a head that fails the predicate. -/
theorem dropTrail_cons_ne (p : Char → Bool) (c : Char) (z : List Char)
    (hc : p c = false) : dropTrail p (c :: z) = c :: dropTrail p z := by
  unfold dropTrail
  rw [List.reverse_cons, List.dropWhile_append]
  split
  next hemp =>
    have hz : z.reverse.dropWhile p = [] := by
      simpa [List.isEmpty_iff] using hemp
    rw [hz]
    simp [List.dropWhile_cons, hc]
  next hemp =>
    rw [List.reverse_append]
    simp

/-- `dropTrail` walks through a prefix of predicate-failing characters. -/
theorem dropTrail_prepend (p : Char → Bool) (xs : List Char) :
    ∀ z : List Char, (∀ c ∈ xs, p c = false) →
      dropTrail p (xs ++ z) = xs ++ dropTrail p z := by
  induction xs with
  | nil => intro z _; rfl
  | cons x xs2 ih =>
    intro z h
    rw [List.cons_append, dropTrail_cons_ne p x _ (h x (by simp)),
      ih z (fun c hc => h c (by simp [hc]))]
    simp

/-- Every list is its `dropTrail` plus a trailing run satisfying the
predicate. -/
theorem dropTrail_decomp (p : Char → Bool) (l : List Char) :
    ∃ t, l = dropTrail p l ++ t ∧ ∀ c ∈ t, p c = true := by
  refine ⟨(l.reverse.takeWhile p).reverse, ?_, ?_⟩
  · conv_lhs => rw [← List.reverse_reverse l,
      ← List.takeWhile_append_dropWhile p l.reverse]
    rw [List.reverse_append]
    rfl
  · intro c hc
    rw [List.mem_reverse] at hc
    exact List.mem_takeWhile_imp hc

/-- Every list splits as leading whitespace, its strip, and trailing
whitespace. -/
theorem pyStripList_decomp (cs : List Char) :
    ∃ sp sfx, cs = sp ++ pyStripList cs ++ sfx ∧
      (∀ c ∈ sp, isPySpace c = true) ∧ (∀ c ∈ sfx, isPySpace c = true) := by
  obtain ⟨t, ht, htp⟩ := dropTrail_decomp isPySpace (cs.dropWhile isPySpace)
  refine ⟨cs.takeWhile isPySpace, t, ?_, ?_, htp⟩
  · conv_lhs => rw [← List.takeWhile_append_dropWhile isPySpace cs]
    rw [List.append_assoc]
    rw [show pyStripList cs ++ t =
      dropTrail isPySpace (List.dropWhile isPySpace cs) ++ t from rfl]
    rw [← ht]
  · intro c hc
    exact List.mem_takeWhile_imp hc

/-- Shape of a string passing the anchor test: digits, a period, a
whitespace character, a remainder. -/
theorem qPattern_shape (cs : List Char) (h : qPatternTest cs = true) :
    ∃ d w r, cs = d ++ '.' :: w :: r ∧ d ≠ [] ∧
      (∀ c ∈ d, c.isDigit = true) ∧ isPySpace w = true ∧
      d = cs.takeWhile Char.isDigit := by
  unfold qPatternTest at h
  rw [Bool.and_eq_true] at h
  obtain ⟨h1, h2⟩ := h
  have hd : cs.takeWhile Char.isDigit ≠ [] := by simpa using h1
  cases hdrop : cs.dropWhile Char.isDigit with
  | nil => rw [hdrop] at h2; simp at h2
  | cons c rest =>
    rw [hdrop] at h2
    cases rest with
    | nil => simp at h2
    | cons w r =>
      by_cases hc : c = '.'
      · subst hc
        refine ⟨cs.takeWhile Char.isDigit, w, r, ?_, hd, ?_, ?_, rfl⟩
        · conv_lhs =>
            rw [← List.takeWhile_append_dropWhile Char.isDigit cs]
          rw [hdrop]
        · intro x hx; exact List.mem_takeWhile_imp hx
        · simpa using h2
      · exfalso
        revert h2
        split
        next heq => exact fun _ => absurd (by injection heq) hc
        next => simp

/-- The captured index of a digits-period prefix. -/
theorem qNumOf_digits_dot (d X : List Char) (hne : d ≠ [])
    (hd : ∀ c ∈ d, c.isDigit = true) :
    qNumOf (d ++ '.' :: X) = some (digitsToNat d) := by
  obtain ⟨ht, hdr⟩ := takeWhile_dropWhile_prepend Char.isDigit d ('.' :: X) hd
  have h1 : (d ++ '.' :: X).takeWhile Char.isDigit = d := by
    rw [ht]
    simp [List.takeWhile_cons]
  have h2 : (d ++ '.' :: X).dropWhile Char.isDigit = '.' :: X := by
    rw [hdr]
    simp [List.dropWhile_cons]
  unfold qNumOf
  rw [h1, h2, if_neg (by simp [List.isEmpty_iff, hne])]
  rfl

/-- Normalizing an anchor text does not disturb the numeral-period prefix:
the index read off the cleaned question text equals the index read off the
stripped raw text. -/
theorem clean_text_qNumOf (s : String)
    (hp : qPatternTest (pyStrip s).toList = true) :
    qNumOfStr (clean_text s) = qNumOf (pyStrip s).toList := by
  have hfix : (pyStrip s).toList = pyStripList s.toList := rfl
  rw [hfix] at hp ⊢
  obtain ⟨d, w, r, hshape, hdne, hdig, hw, _⟩ := qPattern_shape _ hp
  have hdns : ∀ c ∈ d, isPySpace c = false :=
    fun c hc => isDigit_not_pySpace c (hdig c hc)
  have hddot : ∀ c ∈ d ++ ['.'], isPySpace c = false := by
    intro c hc
    rcases List.mem_append.mp hc with hc | hc
    · exact hdns c hc
    · simp at hc; subst hc; decide
  obtain ⟨sp, sfx, hdecomp, hsp, hsfx⟩ := pyStripList_decomp s.toList
  rw [hshape] at hdecomp
  have hdecomp2 : s.toList = (sp ++ (d ++ ['.'] ++ [w])) ++ (r ++ sfx) := by
    rw [hdecomp]; simp
  have hsne : s ≠ "" := by
    intro he
    rw [he] at hdecomp2
    simp [String.toList] at hdecomp2
  have hct : (clean_text s).toList =
      pyStripList (collapseWs (unescapeList s.toList)) := by
    simp [clean_text, hsne, pyStrip]
  have hamp : ∀ c ∈ sp ++ (d ++ ['.'] ++ [w]), c ≠ '&' := by
    intro c hc
    rcases List.mem_append.mp hc with hc | hc
    · exact pySpace_ne_amp c (hsp c hc)
    · rcases List.mem_append.mp hc with hc | hc
      · rcases List.mem_append.mp hc with hc | hc
        · exact isDigit_ne_amp c (hdig c hc)
        · simp at hc; subst hc; decide
      · simp at hc; subst hc; exact pySpace_ne_amp c hw
  have hu : unescapeList s.toList =
      (sp ++ (d ++ ['.'] ++ [w])) ++ unescapeList (r ++ sfx) := by
    rw [hdecomp2]
    exact unescapeList_append _ _ hamp
  have hform : unescapeList s.toList =
      sp ++ ((d ++ ['.']) ++ (w :: unescapeList (r ++ sfx))) := by
    rw [hu]; simp
  have hz : ∀ b, collapseAux b
      ((d ++ ['.']) ++ (w :: unescapeList (r ++ sfx))) =
      (d ++ ['.']) ++
        (' ' :: collapseAux true (unescapeList (r ++ sfx))) := by
    intro b
    rw [collapseAux_nonspace (d ++ ['.']) _ b (by simp) hddot]
    congr 1
    rw [show (w :: unescapeList (r ++ sfx)) =
      [w] ++ unescapeList (r ++ sfx) from rfl]
    exact collapseAux_false_space [w] _ (by simp)
      (by intro c hc; simp at hc; subst hc; exact hw)
  have hcol : collapseWs (unescapeList s.toList) =
      (if sp.isEmpty then ([] : List Char) else [' ']) ++
        ((d ++ ['.']) ++
          (' ' :: collapseAux true (unescapeList (r ++ sfx)))) := by
    rw [hform]
    unfold collapseWs
    cases sp with
    | nil =>
      simp only [List.nil_append, List.isEmpty_nil, if_true]
      exact hz false
    | cons s0 sp2 =>
      rw [collapseAux_false_space (s0 :: sp2) _ (by simp) hsp]
      rw [show collapseAux true ((d ++ ['.']) ++
          (w :: unescapeList (r ++ sfx))) =
        (d ++ ['.']) ++
          (' ' :: collapseAux true (unescapeList (r ++ sfx))) from hz true]
      simp
  obtain ⟨d0, d2, rfl⟩ := List.exists_cons_of_ne_nil hdne
  have hd0 : isPySpace d0 = false := hdns d0 (by simp)
  have hdw : ((if sp.isEmpty then ([] : List Char) else [' ']) ++
      (((d0 :: d2) ++ ['.']) ++
        (' ' :: collapseAux true (unescapeList (r ++ sfx))))).dropWhile
        isPySpace =
      ((d0 :: d2) ++ ['.']) ++
        (' ' :: collapseAux true (unescapeList (r ++ sfx))) := by
    cases hspe : sp.isEmpty with
    | true =>
      simp only [if_true, List.nil_append, List.cons_append]
      rw [List.dropWhile_cons_of_neg (by simp [hd0])]
    | false =>
      simp only [Bool.false_eq_true, if_false]
      rw [show ([' '] ++ (((d0 :: d2) ++ ['.']) ++
          (' ' :: collapseAux true (unescapeList (r ++ sfx))))) =
        ' ' :: (((d0 :: d2) ++ ['.']) ++
          (' ' :: collapseAux true (unescapeList (r ++ sfx)))) from rfl]
      rw [List.dropWhile_cons_of_pos (by decide)]
      rw [show (((d0 :: d2) ++ ['.']) ++
          (' ' :: collapseAux true (unescapeList (r ++ sfx)))) =
        d0 :: ((d2 ++ ['.']) ++
          (' ' :: collapseAux true (unescapeList (r ++ sfx)))) from by simp]
      rw [List.dropWhile_cons_of_neg (by simp [hd0])]
  have hstrip : pyStripList (collapseWs (unescapeList s.toList)) =
      ((d0 :: d2) ++ ['.']) ++
        dropTrail isPySpace
          (' ' :: collapseAux true (unescapeList (r ++ sfx))) := by
    rw [hcol]
    unfold pyStripList
    rw [hdw]
    exact dropTrail_prepend isPySpace ((d0 :: d2) ++ ['.']) _ hddot
  rw [qNumOfStr, hct, hstrip, hshape]
  rw [show (((d0 :: d2) ++ ['.']) ++
      dropTrail isPySpace
        (' ' :: collapseAux true (unescapeList (r ++ sfx)))) =
    ((d0 :: d2) ++ '.' ::
      dropTrail isPySpace
        (' ' :: collapseAux true (unescapeList (r ++ sfx)))) from by simp]
  rw [qNumOf_digits_dot _ _ (by simp) hdig,
    qNumOf_digits_dot _ _ (by simp) hdig]

/-- Invariant of the discovery folds: every retained anchor matches the
pattern, indices are pairwise distinct, and all retained indices are
seen. -/
def discInv (acc : List Nat × List Ctx) : Prop :=
  (∀ e ∈ acc.2, qPatternTest (pyStrip e.node.getText).toList = true) ∧
  (acc.2.map anchorIdx).Nodup ∧
  (∀ e ∈ acc.2, anchorIdx e ∈ acc.1)

theorem addCand_inv (acc : List Nat × List Ctx) (e : Ctx)
    (h : discInv acc) : discInv (addCand acc e) := by
  obtain ⟨hpat, hnd, hseen⟩ := h
  simp only [addCand]
  split
  next hp =>
    cases hq : qNumOf (pyStrip e.node.getText).toList with
    | none => exact ⟨hpat, hnd, hseen⟩
    | some q =>
      show discInv
        (if acc.1.contains q = true then acc
         else (acc.1 ++ [q], acc.2 ++ [e]))
      by_cases hc : acc.1.contains q = true
      · rw [if_pos hc]
        exact ⟨hpat, hnd, hseen⟩
      · rw [if_neg hc]
        have hqe : anchorIdx e = q := by
          unfold anchorIdx
          rw [hq]
          rfl
        have hqnotin : q ∉ acc.1 := by
          intro hmem
          exact hc (List.elem_eq_true_of_mem hmem)
        refine ⟨?_, ?_, ?_⟩
        · intro x hx
          rcases List.mem_append.mp hx with hx | hx
          · exact hpat x hx
          · simp at hx; subst hx; exact hp
        · show ((acc.2 ++ [e]).map anchorIdx).Nodup
          rw [List.map_append]
          simp only [List.map_cons, List.map_nil]
          rw [List.nodup_append]
          refine ⟨hnd, by simp, ?_⟩
          intro a ha
          simp only [List.mem_singleton]
          intro he2
          subst he2
          rw [hqe] at ha
          obtain ⟨x, hx, hxq⟩ := List.mem_map.mp ha
          exact hqnotin (hxq ▸ hseen x hx)
        · intro x hx
          rcases List.mem_append.mp hx with hx | hx
          · exact List.mem_append_left _ (hseen x hx)
          · simp at hx; subst hx
            rw [hqe]
            exact List.mem_append_right _ (by simp)
  next => exact ⟨hpat, hnd, hseen⟩

theorem pass1_inv (l : List Ctx) :
    ∀ acc, discInv acc → discInv (l.foldl pass1Step acc) := by
  induction l with
  | nil => intro acc h; exact h
  | cons x rest ih =>
    intro acc h
    rw [List.foldl_cons]
    apply ih
    unfold pass1Step
    split
    · exact addCand_inv acc x h
    · exact h

theorem pass2_inv (l : List Ctx) :
    ∀ acc, discInv acc → discInv (l.foldl pass2Step acc) := by
  induction l with
  | nil => intro acc h; exact h
  | cons x rest ih =>
    intro acc h
    rw [List.foldl_cons]
    apply ih
    unfold pass2Step
    split
    · cases pCandOf x with
      | none => exact h
      | some se => exact addCand_inv acc se h
    · exact h

/-- All anchors the discovery retains match the pattern, with pairwise
distinct indices. -/
theorem foundAnchors_inv (doc : NodeList) :
    (∀ e ∈ foundAnchors doc,
      qPatternTest (pyStrip e.node.getText).toList = true) ∧
    ((foundAnchors doc).map anchorIdx).Nodup := by
  have h : discInv (pass2 (ctxOfList [] doc)
      (pass1 (ctxOfList [] doc))) := by
    apply pass2_inv
    apply pass1_inv
    exact ⟨by simp, by simp, by simp⟩
  exact ⟨h.1, h.2.1⟩

/-! ## Sorting lemmas -/

theorem insByKey_perm {α : Type} (key : α → Nat) (x : α) (l : List α) :
    List.Perm (insByKey key x l) (x :: l) := by
  induction l with
  | nil => exact List.Perm.refl _
  | cons y rest ih =>
    unfold insByKey
    split
    · exact ((ih.cons y).trans (List.Perm.swap x y rest))
    · exact List.Perm.refl _

theorem sortByKey_perm {α : Type} (key : α → Nat) (l : List α) :
    List.Perm (sortByKey key l) l := by
  have main : ∀ (l acc : List α),
      List.Perm (l.foldl (fun acc x => insByKey key x acc) acc)
        (acc ++ l) := by
    intro l
    induction l with
    | nil => intro acc; simp
    | cons x rest ih =>
      intro acc
      rw [List.foldl_cons]
      refine (ih (insByKey key x acc)).trans ?_
      refine (((insByKey_perm key x acc).append_right rest).trans ?_)
      exact List.perm_middle.symm
  simpa using main l []

theorem insByKey_sorted {α : Type} (key : α → Nat) (x : α) (l : List α)
    (h : l.Pairwise (fun a b => key a ≤ key b)) :
    (insByKey key x l).Pairwise (fun a b => key a ≤ key b) := by
  induction l with
  | nil => simp [insByKey]
  | cons y rest ih =>
    rw [List.pairwise_cons] at h
    obtain ⟨hy, hrest⟩ := h
    unfold insByKey
    split
    next hle =>
      rw [List.pairwise_cons]
      refine ⟨?_, ih hrest⟩
      intro z hz
      rcases List.mem_cons.mp ((insByKey_perm key x rest).mem_iff.mp hz) with
        hz | hz
      · subst hz; exact hle
      · exact hy z hz
    next hle =>
      rw [List.pairwise_cons]
      refine ⟨?_, List.pairwise_cons.mpr ⟨hy, hrest⟩⟩
      intro z hz
      rcases List.mem_cons.mp hz with hz | hz
      · subst hz; omega
      · exact le_trans (by omega) (hy z hz)

theorem sortByKey_sorted {α : Type} (key : α → Nat) (l : List α) :
    (sortByKey key l).Pairwise (fun a b => key a ≤ key b) := by
  have main : ∀ (l acc : List α),
      acc.Pairwise (fun a b => key a ≤ key b) →
      (l.foldl (fun acc x => insByKey key x acc) acc).Pairwise
        (fun a b => key a ≤ key b) := by
    intro l
    induction l with
    | nil => intro acc h; exact h
    | cons x rest ih =>
      intro acc h
      rw [List.foldl_cons]
      exact ih (insByKey key x acc) (insByKey_sorted key x acc h)
  exact main l [] (by simp)

/-! ## The first-found-wins characterization of discovery -/

/-- The discovery candidates in discovery order: pattern-matching
`strong`/`b` tags first (first pass), then the pattern-matching first
emphasized descendants of `p` tags (second pass). -/
def candStream (doc : NodeList) : List Ctx :=
  (((ctxOfList [] doc).filter
      (fun e => e.node.tagName = "strong" || e.node.tagName = "b")).filter
      (fun e => qPatternTest (pyStrip e.node.getText).toList)) ++
  (((ctxOfList [] doc).filterMap
      (fun e => if e.node.tagName = "p" then pCandOf e else none)).filter
      (fun e => qPatternTest (pyStrip e.node.getText).toList))

/-- Plain first-occurrence dedup of the candidate stream: keep a candidate
exactly when no earlier candidate has the same index. -/
def keepFirstByIdx : List Ctx → List Ctx
  | [] => []
  | e :: rest =>
    e :: keepFirstByIdx
      (rest.filter (fun e2 => anchorIdx e2 != anchorIdx e))
termination_by l => l.length
decreasing_by
  simp only [List.length_cons]
  exact Nat.lt_succ_of_le (List.length_filter_le _ _)

/-- First-occurrence dedup relative to a set of already-taken indices. -/
def keepFirstFrom (seen : List Nat) : List Ctx → List Ctx
  | [] => []
  | e :: rest =>
    if seen.contains (anchorIdx e) then keepFirstFrom seen rest
    else e :: keepFirstFrom (seen ++ [anchorIdx e]) rest

/-- The dedup-insert step of the discovery, with the index precomputed. -/
def insCand (acc : List Nat × List Ctx) (e : Ctx) : List Nat × List Ctx :=
  if acc.1.contains (anchorIdx e) then acc
  else (acc.1 ++ [anchorIdx e], acc.2 ++ [e])

theorem foldl_guard_filter {α β : Type} (g : α → Bool) (f : β → α → β) :
    ∀ (l : List α) (acc : β),
      l.foldl (fun acc e => if g e then f acc e else acc) acc =
        (l.filter g).foldl f acc := by
  intro l
  induction l with
  | nil => intro acc; rfl
  | cons x rest ih =>
    intro acc
    by_cases hg : g x
    · simp only [List.foldl_cons, hg, if_true, List.filter_cons_of_pos hg]
      exact ih (f acc x)
    · simp only [List.foldl_cons, hg, Bool.false_eq_true, if_false,
        List.filter_cons_of_neg (by simpa using hg)]
      exact ih acc

theorem foldl_pass2Step_filterMap (l : List Ctx) :
    ∀ acc, l.foldl pass2Step acc =
      (l.filterMap
        (fun e => if e.node.tagName = "p" then pCandOf e else none)).foldl
        addCand acc := by
  induction l with
  | nil => intro acc; rfl
  | cons x rest ih =>
    intro acc
    by_cases hp : x.node.tagName = "p"
    · cases hc : pCandOf x with
      | none =>
        rw [List.foldl_cons,
          show pass2Step acc x = acc from by simp [pass2Step, hp, hc],
          List.filterMap_cons,
          show (if x.node.tagName = "p" then pCandOf x else none) = none
            from by simp [hp, hc]]
        exact ih acc
      | some se =>
        rw [List.foldl_cons,
          show pass2Step acc x = addCand acc se from by
            simp [pass2Step, hp, hc],
          List.filterMap_cons,
          show (if x.node.tagName = "p" then pCandOf x else none) = some se
            from by simp [hp, hc]]
        exact ih (addCand acc se)
    · rw [List.foldl_cons,
        show pass2Step acc x = acc from by simp [pass2Step, hp],
        List.filterMap_cons,
        show (if x.node.tagName = "p" then pCandOf x else none) = none
          from by simp [hp]]
      exact ih acc

theorem addCand_negE (acc : List Nat × List Ctx) (e : Ctx)
    (hp : qPatternTest (pyStrip e.node.getText).toList = false) :
    addCand acc e = acc := by
  simp only [addCand, hp, Bool.false_eq_true, if_false]

theorem addCand_posE (acc : List Nat × List Ctx) (e : Ctx)
    (hp : qPatternTest (pyStrip e.node.getText).toList = true) :
    addCand acc e = insCand acc e := by
  have hidx : anchorIdx e =
      digitsToNat
        ((pyStrip e.node.getText).toList.takeWhile Char.isDigit) := by
    unfold anchorIdx
    rw [qPatternTest_qNumOf _ hp]
    rfl
  simp only [addCand, insCand, hp, if_true]
  rw [qPatternTest_qNumOf _ hp, hidx]

theorem foldl_addCand_insCand (l : List Ctx) :
    ∀ acc, l.foldl addCand acc =
      (l.filter
        (fun e => qPatternTest (pyStrip e.node.getText).toList)).foldl
        insCand acc := by
  induction l with
  | nil => intro acc; rfl
  | cons x rest ih =>
    intro acc
    by_cases hp : qPatternTest (pyStrip x.node.getText).toList
    · rw [List.foldl_cons, addCand_posE acc x hp]
      have hfil : List.filter
          (fun e => qPatternTest (pyStrip e.node.getText).toList)
          (x :: rest) =
          x :: List.filter
            (fun e => qPatternTest (pyStrip e.node.getText).toList) rest := by
        simp only [List.filter_cons, hp, if_true]
      rw [hfil, List.foldl_cons]
      exact ih (insCand acc x)
    · have hpf : qPatternTest (pyStrip x.node.getText).toList = false := by
        simpa using hp
      rw [List.foldl_cons, addCand_negE acc x hpf]
      have hfil : List.filter
          (fun e => qPatternTest (pyStrip e.node.getText).toList)
          (x :: rest) =
          List.filter
            (fun e => qPatternTest (pyStrip e.node.getText).toList) rest := by
        simp only [List.filter_cons, hpf, Bool.false_eq_true, if_false]
      rw [hfil]
      exact ih acc

theorem foldl_insCand_keepFirst (l : List Ctx) :
    ∀ (s : List Nat) (es : List Ctx),
      (l.foldl insCand (s, es)).2 = es ++ keepFirstFrom s l := by
  induction l with
  | nil => intro s es; simp [keepFirstFrom]
  | cons e rest ih =>
    intro s es
    by_cases hc : s.contains (anchorIdx e)
    · have h1 : insCand (s, es) e = (s, es) := by
        unfold insCand
        rw [if_pos hc]
      rw [List.foldl_cons, h1, ih s es, keepFirstFrom, if_pos hc]
    · have h1 : insCand (s, es) e = (s ++ [anchorIdx e], es ++ [e]) := by
        unfold insCand
        rw [if_neg hc]
      rw [List.foldl_cons, h1, ih (s ++ [anchorIdx e]) (es ++ [e]),
        keepFirstFrom, if_neg hc]
      simp

theorem contains_append_not (seen : List Nat) (a y : Nat) :
    (!(seen ++ [a]).contains y) =
      ((y != a) && !seen.contains y) := by
  by_cases h1 : y = a <;> by_cases h2 : y ∈ seen <;>
    simp [h1, h2]

theorem keepFirstFrom_eq (l : List Ctx) :
    ∀ seen : List Nat,
      keepFirstFrom seen l =
        keepFirstByIdx
          (l.filter (fun e => !seen.contains (anchorIdx e))) := by
  induction l with
  | nil => intro seen; simp [keepFirstFrom, keepFirstByIdx]
  | cons e rest ih =>
    intro seen
    by_cases hc : seen.contains (anchorIdx e)
    · rw [keepFirstFrom, if_pos hc, ih seen]
      have hfil : (e :: rest).filter
          (fun e2 => !seen.contains (anchorIdx e2)) =
          rest.filter (fun e2 => !seen.contains (anchorIdx e2)) := by
        simp only [List.filter_cons, hc, Bool.not_true, Bool.false_eq_true,
          if_false]
      rw [hfil]
    · have hcf : seen.contains (anchorIdx e) = false := by simpa using hc
      rw [keepFirstFrom, if_neg hc, ih (seen ++ [anchorIdx e])]
      have hfil : (e :: rest).filter
          (fun e2 => !seen.contains (anchorIdx e2)) =
          e :: rest.filter (fun e2 => !seen.contains (anchorIdx e2)) := by
        simp only [List.filter_cons, hcf, Bool.not_false, if_true]
      rw [hfil, keepFirstByIdx]
      congr 1
      rw [List.filter_filter]
      congr 1
      apply List.filter_congr
      intro x _
      rw [contains_append_not]

/-- The discovery is exactly first-occurrence retention over the candidate
stream. -/
theorem foundAnchors_keepFirst (doc : NodeList) :
    foundAnchors doc = keepFirstByIdx (candStream doc) := by
  have hpass1 : pass1 (ctxOfList [] doc) =
      (((ctxOfList [] doc).filter
          (fun e => e.node.tagName = "strong" || e.node.tagName = "b")).filter
          (fun e => qPatternTest (pyStrip e.node.getText).toList)).foldl
        insCand ([], []) := by
    unfold pass1
    have hstep : pass1Step = fun acc e =>
        if e.node.tagName = "strong" || e.node.tagName = "b" then
          addCand acc e
        else acc := rfl
    rw [hstep, foldl_guard_filter
      (fun e => e.node.tagName = "strong" || e.node.tagName = "b")
      addCand (ctxOfList [] doc) ([], [])]
    rw [foldl_addCand_insCand]
  have hfound : foundAnchors doc =
      ((candStream doc).foldl insCand ([], [])).2 := by
    unfold foundAnchors candStream
    simp only []
    unfold pass2
    rw [foldl_pass2Step_filterMap, foldl_addCand_insCand, hpass1,
      List.foldl_append]
  rw [hfound, foldl_insCand_keepFirst, keepFirstFrom_eq]
  simp

/-- Every record an anchor produces carries the anchor's cleaned text as
its question. -/
theorem processAnchor_question (e : Ctx) (r : QRecord)
    (h : processAnchor e = some r) :
    r.question = clean_text e.node.getText := by
  by_cases h1 : (scanWalk (walkOf e) {}).choices.isEmpty
  · by_cases h2 : specialKeywords.any
        (fun k => isSubstr k (strLower (clean_text e.node.getText)))
    · simp only [processAnchor, assemble, h1, h2, Bool.not_true,
        Bool.false_eq_true, if_false, if_true] at h
      rw [Option.some_inj] at h
      rw [← h]
    · simp only [processAnchor, assemble, h1, h2, Bool.not_true,
        Bool.false_eq_true, if_false] at h
      exact absurd h (by simp)
  · have h1f : (scanWalk (walkOf e) {}).choices.isEmpty = false := by
      simpa using h1
    simp only [processAnchor, assemble, h1f, Bool.not_false, if_true] at h
    rw [Option.some_inj] at h
    rw [← h]

/-- C1: the emitted records are strictly ascending in the numeral index
embedded at the start of their question texts (in particular every emitted
question carries such an index and no two coincide), for every document —
independent of the anchors' order of appearance — and the discovery
retains, per index, exactly the first-found anchor of the combined
candidate stream of the two passes. -/
theorem C1_output_ordering (doc : NodeList) :
    (∀ r ∈ extract_quiz_data doc, (qNumOfStr r.question).isSome = true) ∧
    (extract_quiz_data doc).Pairwise
      (fun r1 r2 =>
        (qNumOfStr r1.question).getD 0 < (qNumOfStr r2.question).getD 0) ∧
    foundAnchors doc = keepFirstByIdx (candStream doc) := by
  have hinv := foundAnchors_inv doc
  have hperm : List.Perm (sortedAnchors doc) (foundAnchors doc) :=
    sortByKey_perm anchorIdx (foundAnchors doc)
  have hpatS : ∀ e ∈ sortedAnchors doc,
      qPatternTest (pyStrip e.node.getText).toList = true :=
    fun e he => hinv.1 e (hperm.subset he)
  have hndS : ((sortedAnchors doc).map anchorIdx).Nodup :=
    ((hperm.map anchorIdx).nodup_iff).mpr hinv.2
  have hsorted : (sortedAnchors doc).Pairwise
      (fun a b => anchorIdx a ≤ anchorIdx b) :=
    sortByKey_sorted anchorIdx (foundAnchors doc)
  have hne : (sortedAnchors doc).Pairwise
      (fun a b => anchorIdx a ≠ anchorIdx b) :=
    List.pairwise_map.mp hndS
  have hlt : (sortedAnchors doc).Pairwise
      (fun a b => anchorIdx a < anchorIdx b) :=
    (hsorted.and hne).imp (fun h => lt_of_le_of_ne h.1 h.2)
  have hidxOf : ∀ e ∈ sortedAnchors doc, ∀ r : QRecord,
      processAnchor e = some r →
      qNumOfStr r.question = some (anchorIdx e) := by
    intro e he r hr
    have hp := hpatS e he
    rw [processAnchor_question e r hr, clean_text_qNumOf _ hp,
      qPatternTest_qNumOf _ hp]
    unfold anchorIdx
    rw [qPatternTest_qNumOf _ hp]
    rfl
  refine ⟨?_, ?_, foundAnchors_keepFirst doc⟩
  · intro r hr
    obtain ⟨e, he, hpe⟩ := List.mem_filterMap.mp hr
    rw [hidxOf e he r hpe]
    rfl
  · rw [show extract_quiz_data doc =
      (sortedAnchors doc).filterMap processAnchor from rfl]
    rw [List.pairwise_filterMap]
    refine hlt.imp_of_mem ?_
    intro e1 e2 h1 h2 hline r1 hr1 r2 hr2
    rw [hidxOf e1 h1 r1 (by simpa using hr1),
      hidxOf e2 h2 r2 (by simpa using hr2)]
    simpa using hline
